import Mathlib

/-!
Verification of the repository-processing pipeline of the open-deepwiki
backend: a shallow embedding, in Lean 4, of the submission / cancellation /
retry logic (`app/api/repositories.py`, `app/tasks/process_repo.py`,
`app/celery_app.py`), the credential scrubbing (`app/tasks/git_operations.py`,
`app/tasks/process_repo.py`), the chunk splitter (`app/services/chunker.py`),
the parser and embedder (`app/services/parser.py`, `app/services/embedder.py`),
the incremental sync (`app/tasks/incremental_sync.py`) and the incremental
wiki update (`app/services/wiki_generator.py`), together with theorems
settling the specification claims about them.

Python strings are modelled as lists of characters (`PyStr`); Python ints as
`Nat`/`Int`/`ℚ`; fallible calls as `Except`; external collaborators (the
embedding API, the LLM, the progress bus, the AST parsers) as explicit
function parameters ("oracles"), so every claim is proved for all behaviours
of the collaborator.
-/

/-- Python `str`, modelled as its sequence of characters. -/
abbrev PyStr := List Char

/-- Python truthiness of a string: non-empty. -/
def pyTruthy (s : PyStr) : Bool := !s.isEmpty

/- ### Credential scrubbing (`git_operations.TokenScrubFilter`, `process_repo._run_task`)

The scrub patterns of the source are regular expressions of a common simple
shape: a literal head, one or two character-class repetitions with a minimum
count, and an optional literal tail:

  `https://oauth2:[^@]+@`             head `https://oauth2:`, run `[^@]{1,}`, tail `@`
  `ghp_[A-Za-z0-9_]{36,}`            head `ghp_`, run of length ≥ 36
  `glpat-[A-Za-z0-9\-_]{20,}`        head `glpat-`, run of length ≥ 20
  `Bearer\s+[A-Za-z0-9\-_.]+`        head `Bearer`, runs `\s{1,}` then class
  `token=[A-Za-z0-9\-_.]+`           head `token=`, run of length ≥ 1

`re.sub` scans left to right and replaces each non-overlapping match. -/

/-- A scrub pattern: literal head, then character-class repetitions each with
a minimum count (Python `{n,}` / `+`), then a literal tail. -/
structure ScrubPat where
  head : PyStr
  runs : List ((Char → Bool) × Nat)
  tail : PyStr

/-- The runs of a pattern match a string: it splits into consecutive blocks,
block `i` drawn from class `i` with at least the required length. -/
inductive RunsMatch : List ((Char → Bool) × Nat) → PyStr → Prop
  | nil : RunsMatch [] []
  | cons (w : PyStr) (p : Char → Bool) (m : Nat) (rs : List ((Char → Bool) × Nat))
      (rest : PyStr) (hw : ∀ c ∈ w, p c = true) (hlen : m ≤ w.length)
      (htail : RunsMatch rs rest) : RunsMatch ((p, m) :: rs) (w ++ rest)

/-- A string is a full match of the pattern. -/
def LangMatch (pat : ScrubPat) (s : PyStr) : Prop :=
  ∃ mid, s = pat.head ++ mid ++ pat.tail ∧ RunsMatch pat.runs mid

/-- Greedy consumption of the run part: Python regex repetition over a
character class is greedy, and for the source's patterns the class of each
run excludes the first character of what follows, so greedy matching is
the canonical decomposition. Returns the number of characters consumed. -/
def takeRuns : List ((Char → Bool) × Nat) → PyStr → Option Nat
  | [], _ => some 0
  | (p, m) :: rs, s =>
      let w := s.takeWhile p
      if m ≤ w.length then
        (takeRuns rs (s.drop w.length)).map (w.length + ·)
      else none

/-- Length of the regex match starting at the head of `s`, if any
(the semantics of `re`'s matcher at one position, for this pattern shape). -/
def matchAt (pat : ScrubPat) (s : PyStr) : Option Nat :=
  if pat.head.isPrefixOf s then
    match takeRuns pat.runs (s.drop pat.head.length) with
    | none => none
    | some k =>
        if pat.tail.isPrefixOf (s.drop (pat.head.length + k)) then
          some (pat.head.length + k + pat.tail.length)
        else none
  else none

/-- The scan of `re.sub`, with explicit fuel (one unit per consumed input
character; every step consumes at least one, so `s.length` fuel always
suffices and the fuel-exhausted branch is never reached from `scrubSub`). -/
def scrubGo (pat : ScrubPat) (repl : PyStr) : Nat → PyStr → PyStr
  | _, [] => []
  | 0, s => s
  | fuel + 1, c :: rest =>
      match matchAt pat (c :: rest) with
      | some n => repl ++ scrubGo pat repl fuel (rest.drop (n - 1))
      | none => c :: scrubGo pat repl fuel rest

/-- `re.sub(pat, repl, s)`: scan left to right, replace each non-overlapping
match by `repl`, copy non-matching characters. -/
def scrubSub (pat : ScrubPat) (repl : PyStr) (s : PyStr) : PyStr :=
  scrubGo pat repl s.length s

/-- Character class `[A-Za-z0-9_]` (GitHub token body). -/
def ghpClass (c : Char) : Bool :=
  (('A' ≤ c && c ≤ 'Z') || ('a' ≤ c && c ≤ 'z') || ('0' ≤ c && c ≤ '9') || c == '_')

/-- Character class `[A-Za-z0-9\-_]` (GitLab token body). -/
def glpatClass (c : Char) : Bool := ghpClass c || c == '-'

/-- Character class `[A-Za-z0-9\-_.]` (bearer / url token body). -/
def bearerClass (c : Char) : Bool := ghpClass c || c == '-' || c == '.'

/-- Character class `\s` (Python whitespace for the `re` module, ASCII part). -/
def spaceClass (c : Char) : Bool :=
  (c == ' ' || c == '\t' || c == '\n' || c == '\r' || c == '\x0b' || c == '\x0c')

/-- Character class `[^@]`. -/
def notAtClass (c : Char) : Bool := c != '@'

/-- `https://oauth2:[^@]+@` (both scrub sites). -/
def oauthPat : ScrubPat :=
  { head := "https://oauth2:".toList, runs := [(notAtClass, 1)], tail := "@".toList }

/-- `ghp_[A-Za-z0-9_]{36,}` (the log filter). -/
def ghpLogPat : ScrubPat :=
  { head := "ghp_".toList, runs := [(ghpClass, 36)], tail := [] }

/-- `glpat-[A-Za-z0-9\-_]{20,}` (the log filter). -/
def glpatLogPat : ScrubPat :=
  { head := "glpat-".toList, runs := [(glpatClass, 20)], tail := [] }

/-- `Bearer\s+[A-Za-z0-9\-_.]+` (the log filter). -/
def bearerPat : ScrubPat :=
  { head := "Bearer".toList, runs := [(spaceClass, 1), (bearerClass, 1)], tail := [] }

/-- `token=[A-Za-z0-9\-_.]+` (the log filter). -/
def tokenEqPat : ScrubPat :=
  { head := "token=".toList, runs := [(bearerClass, 1)], tail := [] }

/-- `ghp_[A-Za-z0-9_]+` (the task-error scrub in `_run_task`). -/
def ghpErrPat : ScrubPat :=
  { head := "ghp_".toList, runs := [(ghpClass, 1)], tail := [] }

/-- `glpat-[A-Za-z0-9\-_]+` (the task-error scrub in `_run_task`). -/
def glpatErrPat : ScrubPat :=
  { head := "glpat-".toList, runs := [(glpatClass, 1)], tail := [] }

/-- The replacement text `[REDACTED]`. -/
def redactedRepl : PyStr := "[REDACTED]".toList

/-- The replacement text `https://[REDACTED]@` used by the error-message
scrub for the oauth2 pattern. -/
def oauthErrRepl : PyStr := "https://[REDACTED]@".toList

/-- `TokenScrubFilter.filter` applied to one log message: the five
substitutions, in the order of `TokenScrubFilter.PATTERNS`. -/
def token_scrub_filter (s : PyStr) : PyStr :=
  scrubSub tokenEqPat redactedRepl
    (scrubSub bearerPat redactedRepl
      (scrubSub glpatLogPat redactedRepl
        (scrubSub ghpLogPat redactedRepl
          (scrubSub oauthPat redactedRepl s))))

/-- The error-message scrub of `_run_task`'s exception handler: three
`re.sub` calls, oauth2 then `ghp_` then `glpat-`. The `Bearer` pattern is
not among them. -/
def scrub_error_message (s : PyStr) : PyStr :=
  scrubSub glpatErrPat redactedRepl
    (scrubSub ghpErrPat redactedRepl
      (scrubSub oauthPat oauthErrRepl s))

/- ### TaskRow data model (`app/models/task.py`) -/

/-- `TaskType` of `app/models/task.py`. -/
inductive TaskType
  | full_process | incremental_sync | wiki_regenerate | parse_only
  deriving DecidableEq, Repr

/-- `TaskStatus` of `app/models/task.py`. -/
inductive TaskStatus
  | pending | cloning | parsing | embedding | generating
  | completed | failed | cancelled | interrupted
  deriving DecidableEq, Repr

/-- The rows of the `tasks` table that the verified operations read or write. -/
structure TaskRow where
  id : Nat
  repo_id : Nat
  type : TaskType
  status : TaskStatus
  progress_pct : ℚ
  current_stage : Option PyStr
  error_msg : Option PyStr
  failed_at_stage : Option PyStr
  deriving DecidableEq, Repr

/- ### Submission / deletion (`app/api/repositories.py`) -/

/-- The filter of the active-task query used by `submit_repository`,
`reprocess_repository`, `sync_repository` and `delete_repository`:
`~TaskRow.status.in_([COMPLETED, FAILED, CANCELLED])`. Note that
`INTERRUPTED` is not excluded by this filter. -/
def activeFilter (t : TaskRow) : Bool :=
  !(t.status == .completed || t.status == .failed || t.status == .cancelled)

/-- `active_task_result.scalars().first()`: the first task of the repo
matching the active filter. -/
def find_active_task (tasks : List TaskRow) : Option TaskRow :=
  tasks.find? activeFilter

/-- Outcome of `submit_repository` after URL validation: either an HTTP 409
conflict carrying the offending task id, or acceptance with the type of the
task that will be created. -/
inductive SubmitResult
  | conflict (existing_task_id : Nat)
  | accepted (task_type : TaskType)
  deriving DecidableEq, Repr

/-- The decision logic of `submit_repository` (lines 46-91): if the repo URL
is already registered and an active task exists, reject with 409 and the
existing task's id; if it is registered without an active task, accept and
create an `INCREMENTAL_SYNC` task; otherwise create the repo and a
`FULL_PROCESS` task. `repo_tasks` are the tasks of the already-registered
repo (ignored when the repo is new). -/
def submit_repository_check (repo_exists : Bool) (repo_tasks : List TaskRow) : SubmitResult :=
  if repo_exists then
    match find_active_task repo_tasks with
    | some t => .conflict t.id
    | none => .accepted .incremental_sync
  else .accepted .full_process

/-- The status update performed by `delete_repository` (lines 336-363) on the
tasks of the repo being deleted: every task matching the active filter has
its status set to `CANCELLED`; the others are untouched. -/
def delete_repository_cancel_step (tasks : List TaskRow) : List TaskRow :=
  tasks.map fun t => if activeFilter t then { t with status := .cancelled } else t

/- ### The Celery task envelope (`app/tasks/process_repo.py`) -/

/-- `_reset_task_for_retry` (lines 419-429): before an automatic retry the
task is reset to `PENDING` with its error cleared, unless its status is
`INTERRUPTED` or `CANCELLED`. -/
def reset_task_for_retry (t : TaskRow) : TaskRow :=
  if !(t.status == .interrupted || t.status == .cancelled) then
    { t with status := .pending, error_msg := none, failed_at_stage := none }
  else t

/-- The cancellation sentinel `TaskCancelledException`. -/
inductive Sentinel
  | taskCancelled
  deriving DecidableEq, Repr

/-- `_update_task` (lines 432-443): refuses to advance a task that is already
`CANCELLED` or `INTERRUPTED`, raising the sentinel; otherwise writes status,
progress and stage (and commits). -/
def update_task (t : TaskRow) (status : TaskStatus) (progress : ℚ) (stage : PyStr) :
    Except Sentinel TaskRow :=
  if t.status == .cancelled || t.status == .interrupted then
    .error .taskCancelled
  else
    .ok { t with status := status, progress_pct := progress, current_stage := some stage }

/-- `_fail_task` (lines 446-455): mark the task `FAILED`, record the message,
and the failing stage when one is given. -/
def fail_task (t : TaskRow) (msg : PyStr) (stage : Option PyStr) : TaskRow :=
  { t with
    status := .failed
    error_msg := some msg
    failed_at_stage := match stage with | some s => some s | none => t.failed_at_stage }

/-- An exception reaching `process_repository_task` / `_run_task`'s handler:
either the cancellation sentinel or an ordinary exception with a message. -/
inductive TaskError
  | cancelSentinel
  | other (msg : PyStr)
  deriving DecidableEq, Repr

/- ### Progress publication (`process_repo._publish`, `redis_client`) -/

/-- A progress event as published on `task_progress:<taskId>`. -/
structure ProgressEvent where
  task_id : Nat
  status : PyStr
  progress_pct : ℚ
  stage : PyStr
  deriving DecidableEq, Repr

/-- A Python exception raised by a collaborator (Redis, json, …); opaque. -/
structure PyErr where
  msg : PyStr
  deriving DecidableEq, Repr

/-- `round(progress, 1)`. Python rounds the binary float half-to-even; the
claims are insensitive to the value, so round-half-up on ℚ stands in. -/
def round1 (q : ℚ) : ℚ := (⌊q * 10 + 1 / 2⌋ : ℚ) / 10

/-- What `_publish` returns to its caller, and the events the Progress Bus
actually accepted. -/
structure PublishOutcome where
  result : Except PyErr Unit
  delivered : List ProgressEvent
  deriving Repr

/-- `_publish` (lines 458-471): build the payload, hand it to
`publish_progress`; any exception is swallowed (`except Exception: pass`).
The bus (Redis connection, json encoding, …) is the oracle `bus`. -/
def publish_ (bus : ProgressEvent → Except PyErr Unit) (task_id : Nat)
    (status : PyStr) (progress : ℚ) (stage : PyStr) : PublishOutcome :=
  let ev : ProgressEvent :=
    { task_id := task_id, status := status, progress_pct := round1 progress, stage := stage }
  match bus ev with
  | .ok _ => { result := .ok (), delivered := [ev] }
  | .error _ => { result := .ok (), delivered := [] }

/-- `_embed_progress` (lines 312-313), the embed stage's progress callback:
publishes the scaled progress. It consults neither the Cancellation Registry
nor the task row. -/
def embed_progress (bus : ProgressEvent → Except PyErr Unit) (task_id : Nat)
    (pct : ℚ) (msg : PyStr) : PublishOutcome :=
  publish_ bus task_id "embedding".toList (50 + pct * (2 / 10)) msg

/-- `_wiki_progress` (lines 342-353), the generate stage's progress callback:
first checks the cancel flag (a failing check is swallowed), raising the
sentinel when it is set; then `_update_task` (which itself raises the
sentinel on a `CANCELLED`/`INTERRUPTED` row); then publishes. `flag` is the
outcome of `check_cancel_flag`. -/
def wiki_progress (bus : ProgressEvent → Except PyErr Unit)
    (flag : Except PyErr Bool) (t : TaskRow) (task_id : Nat) (pct : ℚ) (msg : PyStr) :
    Except Sentinel (TaskRow × PublishOutcome) :=
  let actual_pct := 75 + pct * (2 / 10)
  match flag with
  | .ok true => .error .taskCancelled
  | _ =>
      match update_task t .generating actual_pct msg with
      | .error s => .error s
      | .ok t2 => .ok (t2, publish_ bus task_id "generating".toList actual_pct msg)

/-- The exception handler of `_run_task` (lines 400-413): a cancellation
sentinel exits quietly (no `FAILED` mark, no event); any other exception is
scrubbed, the task is marked failed at the current stage, and a `failed`
event is published. Returns the updated task row and the publish outcome,
or `none` for the quiet exit. -/
def run_task_exception_handler (bus : ProgressEvent → Except PyErr Unit)
    (t : TaskRow) (task_id : Nat) (stage : PyStr) (e : TaskError) :
    Option (TaskRow × PublishOutcome) :=
  match e with
  | .cancelSentinel => none
  | .other msg =>
      let m := scrub_error_message msg
      some (fail_task t m (some stage),
            publish_ bus task_id "failed".toList 0 ("处理失败: ".toList ++ m))

/- ### Chunk splitting (`app/services/chunker.py`) -/

/-- `ChunkNode` of `app/schemas/chunk_node.py`. -/
structure ChunkNode where
  id : PyStr
  file_path : PyStr
  node_type : PyStr
  name : PyStr
  start_line : Nat
  end_line : Nat
  content : PyStr
  language : PyStr
  parent_id : Option PyStr
  parent_name : Option PyStr
  calls : List PyStr
  decorators : List PyStr
  docstring : Option PyStr
  is_orm_model : Bool
  deriving DecidableEq, Repr

/-- `MAX_CHUNK_TOKENS` of `chunker.py`. -/
def MAX_CHUNK_TOKENS : Nat := 6000

/-- `OVERLAP_LINES` of `chunker.py`. -/
def OVERLAP_LINES : Nat := 20

/-- `window_size = MAX_CHUNK_TOKENS * 4 // 80`. -/
def window_size : Nat := MAX_CHUNK_TOKENS * 4 / 80

/-- `step = window_size - OVERLAP_LINES; if step <= 0: step = window_size`.
In ℕ, `window_size - OVERLAP_LINES = 0` exactly when the Python `int` is
`<= 0`. -/
def chunk_step : Nat :=
  if window_size - OVERLAP_LINES = 0 then window_size else window_size - OVERLAP_LINES

/-- Fresh `uuid.uuid4()` for a sub-chunk, modelled deterministically from the
parent id and part index (no claim depends on chunk-id values, only on
which chunks carry them). -/
def uuid4_model (parent : PyStr) (idx : Nat) : PyStr :=
  parent ++ '/' :: (toString idx).toList

/-- One sub-chunk of the sliding window, from the `while` body of
`split_large_chunk`: content `lines[start:end]` joined by newlines,
line numbers offset from the parent, calls/docstring only on part 0. -/
def makeSubChunk (chunk : ChunkNode) (lines : List PyStr)
    (start e part_index : Nat) : ChunkNode :=
  { id := uuid4_model chunk.id part_index
    file_path := chunk.file_path
    node_type := chunk.node_type ++ "_part".toList
    name := chunk.name ++ "__part_".toList ++ (toString part_index).toList
    start_line := chunk.start_line + start
    end_line := chunk.start_line + e - 1
    content := List.intercalate ['\n'] ((lines.drop start).take (e - start))
    language := chunk.language
    parent_id := some chunk.id
    parent_name := some chunk.name
    calls := if part_index = 0 then chunk.calls else []
    decorators := []
    docstring := if part_index = 0 then chunk.docstring else none
    is_orm_model := false }

/-- The `while start < total_lines` loop of `split_large_chunk`. -/
def slideLoop (chunk : ChunkNode) (lines : List PyStr) (start part_index : Nat) :
    List ChunkNode :=
  if h : start < lines.length then
    let e := min (start + window_size) lines.length
    makeSubChunk chunk lines start e part_index ::
      slideLoop chunk lines (start + chunk_step) (part_index + 1)
  else []
  termination_by lines.length - start
  decreasing_by
    have hstep : 0 < chunk_step := by decide
    omega

/-- `split_large_chunk` (`chunker.py` lines 8-58): if the estimated token
count `len(content) // 4` does not exceed the budget, return the chunk
unsplit; otherwise split `content.split("\n")` by the sliding window. -/
def split_large_chunk (chunk : ChunkNode) : List ChunkNode :=
  let estimated_tokens := chunk.content.length / 4
  if estimated_tokens ≤ MAX_CHUNK_TOKENS then [chunk]
  else slideLoop chunk (chunk.content.splitOn '\n') 0 0

/- ### Shared Python-semantics helpers -/

/-- `str.strip()` (whitespace, ASCII part, as in `spaceClass`). -/
def pyStrip (s : PyStr) : PyStr :=
  ((s.dropWhile spaceClass).reverse.dropWhile spaceClass).reverse

/-- Python slicing loop `for i in range(0, len(l), bs): l[i:i+bs]`. -/
def pyBatches (bs : Nat) (l : List α) : List (List α) :=
  if _hb : bs = 0 || l.isEmpty then []
  else l.take bs :: pyBatches bs (l.drop bs)
  termination_by l.length
  decreasing_by
    rcases l with _ | ⟨a, l⟩
    · simp at _hb
    · simp only [List.length_drop, List.length_cons]
      simp only [Bool.or_eq_true, decide_eq_true_eq, List.isEmpty_cons] at _hb
      omega

/-- Insertion-ordered `dict.setdefault(k, []).append(v)`. -/
def dictAppend (acc : List (PyStr × List PyStr)) (k : PyStr) (v : PyStr) :
    List (PyStr × List PyStr) :=
  if acc.any (fun pr => pr.1 == k) then
    acc.map (fun pr => if pr.1 == k then (pr.1, pr.2 ++ [v]) else pr)
  else acc ++ [(k, [v])]

/-- Insertion-ordered `dict[k] = v`. -/
def dictSet (acc : List (PyStr × PyStr)) (k v : PyStr) : List (PyStr × PyStr) :=
  if acc.any (fun pr => pr.1 == k) then
    acc.map (fun pr => if pr.1 == k then (pr.1, v) else pr)
  else acc ++ [(k, v)]

/-- `dict.get(k, default)`. -/
def dictGet (acc : List (PyStr × PyStr)) (k : PyStr) (dflt : PyStr) : PyStr :=
  match acc.find? (fun pr => pr.1 == k) with
  | some pr => pr.2
  | none => dflt

/- ### File state and the vector store (`app/models/file_state.py`, ChromaDB) -/

/-- A `file_states` row of one repository (`repo_id` fixed by context; the
surrogate `id` column is only used as the deletion key and is represented
by the unique `file_path`). -/
structure FileStateRow where
  file_path : PyStr
  last_commit_hash : PyStr
  file_hash : PyStr
  chunk_ids : List PyStr
  chunk_count : Nat
  deriving DecidableEq, Repr

/-- `ChunkNode.to_metadata` (`chunk_node.py` lines 30-43). -/
structure ChunkMetadata where
  file_path : PyStr
  node_type : PyStr
  name : PyStr
  start_line : Nat
  end_line : Nat
  language : PyStr
  parent_name : PyStr
  calls : PyStr
  is_orm_model : Bool
  has_docstring : Bool
  deriving DecidableEq, Repr

def ChunkNode.to_metadata (c : ChunkNode) : ChunkMetadata :=
  { file_path := c.file_path
    node_type := c.node_type
    name := c.name
    start_line := c.start_line
    end_line := c.end_line
    language := c.language
    parent_name := match c.parent_name with | some p => p | none => []
    calls := List.intercalate ",".toList c.calls
    is_orm_model := c.is_orm_model
    has_docstring := match c.docstring with | some d => pyTruthy d | none => false }

/-- `ChunkNode.to_embedding_text` (`chunk_node.py` lines 45-56). -/
def ChunkNode.to_embedding_text (c : ChunkNode) : PyStr :=
  let parts : List PyStr :=
    ["Language: ".toList ++ c.language,
     "Type: ".toList ++ c.node_type,
     "Name: ".toList ++ c.name,
     "File: ".toList ++ c.file_path]
  let parts := parts ++
    (match c.docstring with
     | some d => if pyTruthy d then ["Documentation: ".toList ++ d] else []
     | none => [])
  let parts := parts ++ ["Code:\n".toList ++ c.content]
  List.intercalate ['\n'] parts

/-- One ChromaDB entry of the repo's collection: `collection.add` stores id,
document, metadata and vector positionally. Vector components are modelled
as ℚ. -/
structure VecEntry where
  id : PyStr
  document : PyStr
  metadata : ChunkMetadata
  embedding : List ℚ
  deriving DecidableEq, Repr

/-- The per-repo durable state touched by parse/embed/sync: the ChromaDB
collection and the `file_states` table. -/
structure EmbedDb where
  collection : List VecEntry
  file_states : List FileStateRow
  deriving DecidableEq, Repr

/- ### Embed stage (`app/services/embedder.py`) -/

/-- The batch loop of `embed_chunks` (lines 147-175): per batch, build the
embedding inputs, call the API (the oracle `api`, wrapping semaphore,
retries and provider), and on success `collection.add` the batch; an API
failure is re-raised, leaving the collection with the batches added so
far. Returns the grown collection and the accumulated ids or the error. -/
def embedBatchesLoop (api : List PyStr → Except PyErr (List (List ℚ)))
    (col : List VecEntry) (acc_ids : List PyStr) :
    List (List ChunkNode) → List VecEntry × Except PyErr (List PyStr)
  | [] => (col, .ok acc_ids)
  | batch :: rest =>
      let texts := batch.map (·.to_embedding_text)
      let ids := batch.map (·.id)
      match api texts with
      | .error e => (col, .error e)
      | .ok embeddings =>
          let entries := (batch.zip embeddings).map fun ce =>
            ({ id := ce.1.id, document := ce.1.content,
               metadata := ce.1.to_metadata, embedding := ce.2 } : VecEntry)
          embedBatchesLoop api (col ++ entries) (acc_ids ++ ids) rest

/-- The `file_chunks` grouping of `embed_chunks` (lines 179-181):
`{file_path → [chunk ids]}` in insertion order. -/
def group_file_chunks (chunks : List ChunkNode) : List (PyStr × List PyStr) :=
  chunks.foldl (fun acc c => dictAppend acc c.file_path c.id) []

/-- The FileState upsert of `embed_chunks` (lines 183-207) for one grouped
path: update the existing row (commit hash only when truthy) or insert a
fresh one. -/
def upsert_file_state (commit_hash : PyStr) (file_hashes : List (PyStr × PyStr))
    (rows : List FileStateRow) (fc : PyStr × List PyStr) : List FileStateRow :=
  let file_hash := dictGet file_hashes fc.1 []
  if rows.any (fun r => r.file_path == fc.1) then
    rows.map fun r =>
      if r.file_path == fc.1 then
        { r with
          file_hash := file_hash
          chunk_ids := fc.2
          chunk_count := fc.2.length
          last_commit_hash := if pyTruthy commit_hash then commit_hash else r.last_commit_hash }
      else r
  else
    rows ++ [{ file_path := fc.1, last_commit_hash := commit_hash,
               file_hash := file_hash, chunk_ids := fc.2, chunk_count := fc.2.length }]

/-- `embed_chunks` (`embedder.py` lines 120-210): batch size 10; every batch
embedded and added to the collection; only after the whole list has
succeeded are FileState rows written (when a `file_hashes` map was given).
Returns the final state and the chunk ids or the propagated error. -/
def embed_chunks (api : List PyStr → Except PyErr (List (List ℚ)))
    (db : EmbedDb) (chunks : List ChunkNode)
    (file_hashes : Option (List (PyStr × PyStr))) (commit_hash : PyStr) :
    EmbedDb × Except PyErr (List PyStr) :=
  if chunks.isEmpty then (db, .ok [])
  else
    let step := embedBatchesLoop api db.collection [] (pyBatches 10 chunks)
    match step.2 with
    | .error e => ({ db with collection := step.1 }, .error e)
    | .ok all_chunk_ids =>
        match file_hashes with
        | none => ({ db with collection := step.1 }, .ok all_chunk_ids)
        | some fh =>
            let fcs := group_file_chunks chunks
            let rows := fcs.foldl (upsert_file_state commit_hash fh) db.file_states
            ({ collection := step.1, file_states := rows }, .ok all_chunk_ids)

/- ### Parse stage (`app/services/parser.py`) -/

/-- A file of the cloned working tree, as visited by `rglob`. -/
structure SrcFile where
  relative_path : PyStr
  content : PyStr
  deriving DecidableEq, Repr

/-- `"code" | "doc" | "config"` of the collection pass. -/
inductive FType
  | code | doc | config
  deriving DecidableEq, Repr

/-- The helpers of `language_detector.py` / `doc_parser.py` / `ast_parser.py`
that `parse_repository` dispatches to, as oracle parameters: the claims
hold for every behaviour of these (parsers may raise: the loop catches and
skips the file). `sha256` is `hashlib.sha256(...).hexdigest()`. -/
structure ParserEnv where
  should_skip : PyStr → Bool
  detect_language : PyStr → Option PyStr
  is_doc_file : PyStr → Bool
  is_config_file : PyStr → Bool
  detect_doc_language : PyStr → PyStr
  sha256 : PyStr → PyStr
  ast_parse_file : PyStr → PyStr → PyStr → Except PyErr (List ChunkNode)
  parse_doc_file : PyStr → PyStr → PyStr → Except PyErr (List ChunkNode)
  parse_config_file : PyStr → PyStr → Except PyErr (List ChunkNode)

/-- The collection pass of `parse_repository` (lines 47-58): classify every
non-skipped file as code, doc or config; others are dropped. -/
def classify_files (env : ParserEnv) (files : List SrcFile) : List (SrcFile × FType) :=
  files.filterMap fun f =>
    if env.should_skip f.relative_path then none
    else match env.detect_language f.relative_path with
    | some _ => some (f, .code)
    | none =>
        if env.is_doc_file f.relative_path then some (f, .doc)
        else if env.is_config_file f.relative_path then some (f, .config)
        else none

/-- The body of the per-file loop of `parse_repository` (lines 65-126),
threading the accumulated `(all_chunks, file_hashes)`. A blank file, an
unchanged file (same recorded hash, no force-full) or a raising parser
contributes nothing; otherwise the file's hash is recorded and its chunks
(code chunks split by the sliding window) are appended. -/
def parse_one (env : ParserEnv) (file_states : List FileStateRow) (force_full : Bool)
    (acc : List ChunkNode × List (PyStr × PyStr)) (ft : SrcFile × FType) :
    List ChunkNode × List (PyStr × PyStr) :=
  let f := ft.1
  let language := match ft.2 with | .code => env.detect_language f.relative_path | _ => none
  if ft.2 == .code && !(language.isSome) then acc
  else if (pyStrip f.content).isEmpty then acc
  else
    let file_hash := env.sha256 f.content
    let existing_state := file_states.find? (fun r => r.file_path == f.relative_path)
    let unchanged := match existing_state with
      | some r => r.file_hash == file_hash && !force_full
      | none => false
    if unchanged then acc
    else
      let parsed : Except PyErr (List ChunkNode) :=
        match ft.2 with
        | .code => env.ast_parse_file f.relative_path f.content
            (match language with | some l => l | none => [])
        | .doc => env.parse_doc_file f.relative_path f.content
            (env.detect_doc_language f.relative_path)
        | .config => env.parse_config_file f.relative_path f.content
      match parsed with
      | .error _ => acc
      | .ok raw_chunks =>
          let hashes2 := dictSet acc.2 f.relative_path file_hash
          let file_chunks :=
            match ft.2 with
            | .code => (raw_chunks.map split_large_chunk).flatten
            | _ => raw_chunks
          (acc.1 ++ file_chunks, hashes2)

/-- `parse_repository` (`parser.py` lines 22-137): returns
`(chunks, file_hashes)`; FileState is only read (the idempotency check),
never written. -/
def parse_repository (env : ParserEnv) (file_states : List FileStateRow)
    (files : List SrcFile) (force_full : Bool) :
    List ChunkNode × List (PyStr × PyStr) :=
  (classify_files env files).foldl (parse_one env file_states force_full) ([], [])

/- ### Incremental sync (`app/tasks/incremental_sync.py`) -/

/-- Decoding of one `git diff --name-status` line by
`_detect_changed_files_sync` (lines 62-76): blank lines and lines with
fewer than two tab-separated fields are skipped; a rename entry
(status beginning `R`, with old and new path fields) is decomposed into
`delete(old)` followed by `add(new)`; anything else yields
`(first status character, last field)`. An empty first field would make
`parts[0][0]` raise `IndexError` (no git line does). -/
def decode_diff_line (line : PyStr) : Except PyErr (List (Char × PyStr)) :=
  if (pyStrip line).isEmpty then .ok []
  else
    match line.splitOn '\t' with
    | [] => .ok []
    | [_] => .ok []
    | [] :: _ :: _ => .error { msg := "IndexError".toList }
    | (c :: _) :: p1 :: ps =>
        if h : c = 'R' ∧ ps ≠ [] then
          .ok [('D', p1), ('A', ps.head h.2)]
        else .ok [(c, (p1 :: ps).getLast (List.cons_ne_nil p1 ps))]

/-- `_detect_changed_files_sync`'s parse of the whole diff output:
`result.stdout.strip().split("\n")`, each line decoded in order; a raised
`IndexError` aborts the whole call. -/
def detect_changed_files (diff_stdout : PyStr) : Except PyErr (List (Char × PyStr)) :=
  ((pyStrip diff_stdout).splitOn '\n').foldl
    (fun acc line =>
      match acc with
      | .error e => .error e
      | .ok l => match decode_diff_line line with
          | .error e => .error e
          | .ok entries => .ok (l ++ entries))
    (.ok [])

/-- The counters returned by `apply_incremental_sync`. -/
structure SyncStats where
  added : Nat
  modified : Nat
  deleted : Nat
  unchanged : Nat
  changed_paths : List PyStr
  deriving DecidableEq, Repr

/-- `_delete_file_chunks` (lines 145-169): look up the FileState row of the
path; if none, no-op; otherwise delete its listed chunk ids from the
collection and drop the row. -/
def delete_file_chunks (db : EmbedDb) (file_path : PyStr) : EmbedDb :=
  match db.file_states.find? (fun r => r.file_path == file_path) with
  | none => db
  | some file_state =>
      { collection :=
          if file_state.chunk_ids.isEmpty then db.collection
          else db.collection.filter (fun e => !(file_state.chunk_ids.contains e.id))
        file_states := db.file_states.filter (fun r => !(r.file_path == file_path)) }

/-- One iteration of the change loop of `apply_incremental_sync`
(lines 113-126): the change's path joins `changed_paths`; `D` and `M`
delete the old chunks and row; `A` only counts. -/
def apply_change_step (st : EmbedDb × SyncStats) (ch : Char × PyStr) :
    EmbedDb × SyncStats :=
  let stats := { st.2 with changed_paths := st.2.changed_paths ++ [ch.2] }
  if ch.1 = 'D' then
    (delete_file_chunks st.1 ch.2, { stats with deleted := stats.deleted + 1 })
  else if ch.1 = 'M' then
    (delete_file_chunks st.1 ch.2, { stats with modified := stats.modified + 1 })
  else if ch.1 = 'A' then
    (st.1, { stats with added := stats.added + 1 })
  else (st.1, stats)

/-- The change loop of `apply_incremental_sync` (lines 110-127). -/
def apply_changes (db : EmbedDb) (changes : List (Char × PyStr)) : EmbedDb × SyncStats :=
  changes.foldl apply_change_step
    (db, { added := 0, modified := 0, deleted := 0, unchanged := 0, changed_paths := [] })

/-- `apply_incremental_sync` (lines 96-142) restricted to its durable
effects on FileState and the vector store: decode the diff, then apply
the changes. (The `git merge --ff-only` and the codebase-index patch do
not touch either store.) -/
def apply_incremental_sync (db : EmbedDb) (diff_stdout : PyStr) :
    Except PyErr (EmbedDb × SyncStats) :=
  (detect_changed_files diff_stdout).map (apply_changes db)

/- ### Incremental wiki update (`app/services/wiki_generator.py`) -/

/-- A `wiki_pages` row. -/
structure WikiPage where
  id : Nat
  title : PyStr
  importance : PyStr
  content_md : PyStr
  summary : Option PyStr
  relevant_files : List PyStr
  order_index : Nat
  page_type : Option PyStr
  deriving DecidableEq, Repr

/-- A `wiki_sections` row with its pages. -/
structure WikiSection where
  id : Nat
  title : PyStr
  order_index : Nat
  pages : List WikiPage
  deriving DecidableEq, Repr

/-- A repo's wiki: the `wikis` row with its section tree. -/
structure WikiTree where
  wiki_id : Nat
  title : PyStr
  sections : List WikiSection
  deriving DecidableEq, Repr

/-- The `_norm` canonicalization of `update_wiki_incrementally`:
`p.replace("\\", "/").lstrip("/").lower()`. -/
def norm_path (p : PyStr) : PyStr :=
  (((p.map fun c => if c == '\\' then '/' else c).dropWhile (· == '/')).map Char.toLower)

/-- Quick-start pages are excluded from the dirty-page computation and
regenerated separately. -/
def is_quick_start (p : WikiPage) : Bool :=
  p.page_type == some "quick_start_overview".toList ||
  p.page_type == some "quick_start_navigation".toList

/-- A page is dirty iff its (normalized) relevant-files list meets the
normalized changed set. -/
def page_dirty (changed_norm : List PyStr) (p : WikiPage) : Bool :=
  (p.relevant_files.map norm_path).any (fun f => changed_norm.contains f)

/-- `FULL_REGEN_THRESHOLD = 0.65`. -/
def FULL_REGEN_THRESHOLD : ℚ := 65 / 100

/-- `SECTION_TITLE_THRESHOLD = 0.80`. -/
def SECTION_TITLE_THRESHOLD : ℚ := 80 / 100

/-- The status field of `update_wiki_incrementally`'s result. -/
inductive IncrStatus
  | updated | full_regen_suggested | no_wiki | no_changes
  deriving DecidableEq, Repr

/-- The result dict of `update_wiki_incrementally`. -/
structure IncrResult where
  status : IncrStatus
  wiki_id : Option Nat
  updated_pages : Nat
  affected_fraction : ℚ
  suggestion_reason : Option PyStr
  skipped_pages : Nat
  deriving DecidableEq, Repr

/-- The LLM-backed sub-calls of the incremental path, as oracles:
`page_update` is `_update_one`'s generation result (`none` when the inner
calls raised and the page is left untouched); `section_title` is
`_suggest_section_title`; `quick_start` produces the regenerated overview
and navigation bodies from the current tree. -/
structure WikiLLM where
  page_update : WikiPage → Option (PyStr × PyStr)
  section_title : WikiSection → Except PyErr (Option PyStr)
  quick_start : WikiTree → PyStr × PyStr
  full_generate : WikiTree × Nat

/-- The human-readable refusal reason
`f"变更影响了 {dirty}/{total} 个页面（…），建议全量重新生成 Wiki 以确保内容完整性"`
(the percentage rendering of the f-string is elided). -/
def regen_reason (dirty total : Nat) : PyStr :=
  "变更影响了 ".toList ++ (toString dirty).toList ++ "/".toList ++ (toString total).toList ++
    " 个页面，建议全量重新生成 Wiki 以确保内容完整性".toList

/-- The dirty-page rewrite of the under-threshold path (lines 1723-1776):
each dirty non-quick-start page whose generation succeeded gets the new
content and summary; every other page is untouched. -/
def update_dirty_pages (llm : WikiLLM) (changed_norm : List PyStr)
    (sections : List WikiSection) : List WikiSection × Nat :=
  let upd := fun (p : WikiPage) =>
    if !is_quick_start p && page_dirty changed_norm p then
      match llm.page_update p with
      | some cs => ({ p with content_md := cs.1, summary := some cs.2 }, 1)
      | none => (p, 0)
    else (p, 0)
  let secs := sections.map fun s =>
    let prs := s.pages.map upd
    ({ s with pages := prs.map (·.1) }, (prs.map (·.2)).sum)
  (secs.map (·.1), (secs.map (·.2)).sum)

/-- The elastic section-title step (lines 1782-1806): only when the overall
dirty fraction exceeds 0.20; a section with a dirty-page share of at least
0.80 gets the suggested title when the LLM produced one (errors skipped). -/
def update_section_titles (llm : WikiLLM) (changed_norm : List PyStr)
    (affected_fraction : ℚ) (sections : List WikiSection) : List WikiSection :=
  if affected_fraction > 20 / 100 then
    sections.map fun s =>
      if s.pages.isEmpty then s
      else
        let dirty_in_section :=
          s.pages.filter (fun p => !is_quick_start p && page_dirty changed_norm p)
        let share : ℚ := (dirty_in_section.length : ℚ) / (s.pages.length : ℚ)
        if SECTION_TITLE_THRESHOLD ≤ share then
          match llm.section_title s with
          | .ok (some t) => { s with title := t }
          | _ => s
        else s
  else sections

/-- `_regenerate_quick_start_pages` (lines 584-689) restricted to its tree
effects: write the regenerated bodies into the two pages of the
`order_index = 0` section, creating section or pages when absent. -/
def regenerate_quick_start (tree : WikiTree) (overview nav : PyStr) : WikiTree :=
  let setPage := fun (pages : List WikiPage) (ptype : PyStr) (title : PyStr)
      (oi : Nat) (content : PyStr) =>
    if pages.any (fun p => p.page_type == some ptype) then
      pages.map fun p =>
        if p.page_type == some ptype then { p with content_md := content } else p
    else
      pages ++ [{ id := 0, title := title, importance := "high".toList,
                  content_md := content, summary := none, relevant_files := [],
                  order_index := oi, page_type := some ptype }]
  let setBoth := fun (pages : List WikiPage) =>
    setPage (setPage pages "quick_start_overview".toList "项目概览".toList 0 overview)
      "quick_start_navigation".toList "内容导航".toList 1 nav
  if tree.sections.any (fun s => s.order_index = 0) then
    { tree with sections := tree.sections.map fun s =>
        if s.order_index = 0 then { s with pages := setBoth s.pages } else s }
  else
    { tree with sections := tree.sections ++
        [{ id := 0, title := "快速上手".toList, order_index := 0, pages := setBoth [] }] }

/-- `update_wiki_incrementally` (`wiki_generator.py` lines 1580-1820),
restricted to its durable effects on the wiki tree. `wiki` is the loaded
wiki (`none` when the repo has no wiki yet: full generation, via the
oracle). Returns the tree after the call and the result dict. -/
def update_wiki_incrementally (llm : WikiLLM) (wiki : Option WikiTree)
    (changed_files : List PyStr) : WikiTree × IncrResult :=
  match wiki with
  | none =>
      (llm.full_generate.1,
       { status := .no_wiki, wiki_id := some llm.full_generate.1.wiki_id,
         updated_pages := 0, affected_fraction := 1, suggestion_reason := none,
         skipped_pages := llm.full_generate.2 })
  | some tree =>
      let all_pages := (tree.sections.map (·.pages)).flatten
      if all_pages.isEmpty then
        (llm.full_generate.1,
         { status := .no_wiki, wiki_id := some llm.full_generate.1.wiki_id,
           updated_pages := 0, affected_fraction := 1, suggestion_reason := none,
           skipped_pages := llm.full_generate.2 })
      else
        let changed_norm := (changed_files.filter pyTruthy).map norm_path
        if changed_norm.isEmpty then
          (tree, { status := .no_changes, wiki_id := some tree.wiki_id,
                   updated_pages := 0, affected_fraction := 0,
                   suggestion_reason := none, skipped_pages := 0 })
        else
          let dirty_pages := all_pages.filter
            (fun p => !is_quick_start p && page_dirty changed_norm p)
          let affected_fraction : ℚ := (dirty_pages.length : ℚ) / (all_pages.length : ℚ)
          if FULL_REGEN_THRESHOLD < affected_fraction then
            (tree, { status := .full_regen_suggested, wiki_id := some tree.wiki_id,
                     updated_pages := 0, affected_fraction := affected_fraction,
                     suggestion_reason := some (regen_reason dirty_pages.length all_pages.length),
                     skipped_pages := 0 })
          else
            let stepA := update_dirty_pages llm changed_norm tree.sections
            let secsB := update_section_titles llm changed_norm affected_fraction stepA.1
            let treeB := { tree with sections := secsB }
            let qs := llm.quick_start treeB
            let treeC := regenerate_quick_start treeB qs.1 qs.2
            (treeC, { status := .updated, wiki_id := some tree.wiki_id,
                      updated_pages := stepA.2, affected_fraction := affected_fraction,
                      suggestion_reason := none, skipped_pages := 0 })

/-- The parse stage as a transition on the durable per-repo state: it reads
`file_states` for the idempotency check and produces the chunk list and the
hash map, leaving both stores untouched (`parser.py` performs no FileState
write and no vector-store write). -/
def parse_stage (env : ParserEnv) (db : EmbedDb) (files : List SrcFile)
    (force_full : Bool) : EmbedDb × (List ChunkNode × List (PyStr × PyStr)) :=
  (db, parse_repository env db.file_states files force_full)

/-- A concrete task row in a given status (progress/stage/error fields
inessential). -/
def taskIn (i : Nat) (st : TaskStatus) : TaskRow :=
  { id := i, repo_id := 7, type := .full_process, status := st,
    progress_pct := 0, current_stage := none, error_msg := none,
    failed_at_stage := none }

/-- A concrete code chunk with the given content. -/
def chunkWith (content : PyStr) : ChunkNode :=
  { id := "c1".toList, file_path := "src/big.py".toList, node_type := "function".toList,
    name := "big".toList, start_line := 1, end_line := 1, content := content,
    language := "python".toList, parent_id := none, parent_name := none,
    calls := [], decorators := [], docstring := none, is_orm_model := false }

/-- A 30 299-character, 300-line content: 300 lines of 100 `a`s. -/
def wideContent : PyStr :=
  List.intercalate ['\n'] (List.replicate 300 (List.replicate 100 'a'))

/-- A concrete technical wiki page over `a.py`. -/
def c6page : WikiPage :=
  { id := 1, title := "P".toList, importance := "high".toList,
    content_md := "body".toList, summary := none,
    relevant_files := ["a.py".toList], order_index := 0, page_type := none }

/-- A concrete one-section, one-page wiki. -/
def c6tree : WikiTree :=
  { wiki_id := 1, title := "W".toList,
    sections := [{ id := 1, title := "S".toList, order_index := 1, pages := [c6page] }] }

/-- Concrete (irrelevant) LLM oracles. -/
def c6llm : WikiLLM :=
  { page_update := fun _ => none, section_title := fun _ => .ok none,
    quick_start := fun _ => ([], []),
    full_generate := ({ wiki_id := 0, title := [], sections := [] }, 0) }

/-- A parser chunk stamped with the path it was invoked on. -/
def c7chunk (p : PyStr) : ChunkNode := { chunkWith "pass".toList with file_path := p }

/-- A concrete parser environment: constant SHA-256, every file Python,
parsers returning one chunk stamped with the invoked path. -/
def c7env : ParserEnv :=
  { should_skip := fun _ => false
    detect_language := fun _ => some "python".toList
    is_doc_file := fun _ => false
    is_config_file := fun _ => false
    detect_doc_language := fun _ => []
    sha256 := fun _ => "HASH".toList
    ast_parse_file := fun p _ _ => .ok [c7chunk p]
    parse_doc_file := fun p _ _ => .ok [c7chunk p]
    parse_config_file := fun p _ => .ok [c7chunk p] }

/-- The recorded FileState row for `a.py` with the current content hash. -/
def c7row : FileStateRow :=
  { file_path := "a.py".toList, last_commit_hash := [], file_hash := "HASH".toList,
    chunk_ids := ["k1".toList], chunk_count := 1 }

/-- The working-tree file `a.py`. -/
def c7file : SrcFile := { relative_path := "a.py".toList, content := "print".toList }

/-- A metadata stub for vector entries in the C8 example. -/
def c8meta : ChunkMetadata :=
  { file_path := "old.py".toList, node_type := [], name := [], start_line := 0,
    end_line := 0, language := [], parent_name := [], calls := [],
    is_orm_model := false, has_docstring := false }

/-- FileState row of `old.py` listing two chunk ids. -/
def c8row : FileStateRow :=
  { file_path := "old.py".toList, last_commit_hash := [], file_hash := "h".toList,
    chunk_ids := ["k1".toList, "k2".toList], chunk_count := 2 }

/-- A store holding chunks `k1`, `k2` of `old.py` and an unrelated `k3`. -/
def c8db : EmbedDb :=
  { collection :=
      [{ id := "k1".toList, document := [], metadata := c8meta, embedding := [] },
       { id := "k2".toList, document := [], metadata := c8meta, embedding := [] },
       { id := "k3".toList, document := [], metadata := c8meta, embedding := [] }],
    file_states := [c8row] }

/-- The characters that can occur in a match of the pattern. -/
def allowedChar (pat : ScrubPat) (c : Char) : Bool :=
  pat.head.contains c || pat.runs.any (fun pr => pr.1 c) || pat.tail.contains c

/-- `s` contains no substring matching the pattern: at no position does a
match of the pattern's language start. This is the formal reading of
"no … contains a substring matching the token pattern". -/
def noLangOcc (pat : ScrubPat) (s : PyStr) : Prop :=
  ∀ i m t, LangMatch pat m → s.drop i ≠ m ++ t

/-- Every repetition of the pattern has a positive minimum (all the
source's patterns use `+` or `{n,}` with `n ≥ 1`). -/
def patMins (pat : ScrubPat) : Prop := ∀ pr ∈ pat.runs, 1 ≤ pr.2

/-- Greedy determinacy: each repetition's class rejects the first character
of what must follow it (the next repetition, or the literal tail). -/
def runsChain : List ((Char → Bool) × Nat) → PyStr → Prop
  | [], _ => True
  | [pr], tail =>
      match tail with
      | [] => True
      | t :: _ => pr.1 t = false
  | pr :: pr2 :: rs, tail => (∀ c, pr2.1 c = true → pr.1 c = false) ∧ runsChain (pr2 :: rs) tail

/-- Well-formedness making the greedy matcher complete for the pattern. -/
def patWF (pat : ScrubPat) : Prop :=
  pat.head ≠ [] ∧ patMins pat ∧ runsChain pat.runs pat.tail

/-- No match of the pattern can start inside the replacement text. -/
def noReplHeadStart (pat : ScrubPat) (repl : PyStr) : Prop :=
  ∀ j, j < repl.length → ¬ ((repl.drop j) <+: pat.head ∨ pat.head <+: (repl.drop j))

/-- No proper suffix of the pattern's head can continue into the
replacement text. -/
def noHeadReplOverlap (pat : ScrubPat) (repl : PyStr) : Prop :=
  ∀ a, 1 ≤ a → a < pat.head.length → ¬ ((pat.head.drop a) <+: repl ∨ repl <+: (pat.head.drop a))

/-- Vector-store entries with the given ids are absent and no row for the
path remains. -/
def no_old (old : PyStr) (ids : List PyStr) (db : EmbedDb) : Prop :=
  (∀ r ∈ db.file_states, r.file_path ≠ old) ∧ (∀ e ∈ db.collection, e.id ∉ ids)

/-! ## Theorems

General helper lemmas first, then for each claim its theorem (with witness
or counterexample where required). -/

theorem intercalate_append_nonempty (s : PyStr) (A B : List PyStr)
    (hA : A ≠ []) (hB : B ≠ []) :
    List.intercalate s (A ++ B) = List.intercalate s A ++ s ++ List.intercalate s B := by
  induction A with
  | nil => cases hA rfl
  | cons a A ih =>
      cases A with
      | nil =>
          cases B with
          | nil => cases hB rfl
          | cons b B =>
              simp [List.intercalate, List.intersperse]
      | cons a2 A2 =>
          have h2 : a2 :: A2 ≠ [] := by simp
          have := ih h2
          simp only [List.cons_append]
          simp [List.intercalate, List.intersperse] at this ⊢
          simp [this, List.append_assoc]

theorem length_intercalate_single (c : Char) (l : List PyStr) (h : l ≠ []) :
    (List.intercalate [c] l).length = (l.map List.length).sum + (l.length - 1) := by
  induction l with
  | nil => cases h rfl
  | cons a l ih =>
      cases l with
      | nil => simp [List.intercalate, List.intersperse]
      | cons b l2 =>
          have h2 : b :: l2 ≠ [] := by simp
          have hsplit := intercalate_append_nonempty [c] [a] (b :: l2) (by simp) h2
          simp only [List.singleton_append] at hsplit
          rw [hsplit, List.length_append, List.length_append, ih h2]
          simp [List.intercalate, List.intersperse]
          omega

/-- C1. The claim states that a submission is rejected with a conflict iff a
non-terminal task exists, with `interrupted` among the terminal statuses, so
that a repo whose only task is `interrupted` accepts a new submission. The
code's active-task filter excludes only `completed | failed | cancelled`:
an `interrupted` task is treated as active, and the submission is rejected
with a 409 carrying that task's id — contradicting the claim (and the
code's own recovery hint on interrupted tasks, the `_TERMINAL` sets of
`celery_app.py` / `api/tasks.py`, and spec scenario 4). This theorem
evaluates the embedded submission check at the failing input. -/
theorem C1_interrupted_task_blocks_submission :
    submit_repository_check true [taskIn 42 .interrupted] = .conflict 42 ∧
    ∀ ty : TaskType, (SubmitResult.conflict 42) ≠ .accepted ty := by
  constructor
  · rfl
  · intro ty h
    cases h

/-- C2 counterexample. The claim as stated says the retry-reset step never
moves a `failed` task back to `pending`; but `_reset_task_for_retry` resets
every task that is not `interrupted`/`cancelled`, including `failed` ones. -/
theorem C2_counterexample :
    (reset_task_for_retry (taskIn 1 .failed)).status = .pending ∧
    (reset_task_for_retry (taskIn 1 .failed)).status ≠ .failed := by
  constructor
  · rfl
  · intro h
    cases h

/-- C2 amended: terminal monotonicity holds only partially. The deletion
cancel step leaves `completed`, `failed` and `cancelled` tasks untouched,
and the retry-reset leaves `interrupted` and `cancelled` tasks untouched;
but repository deletion moves an `interrupted` task to `cancelled`, and the
retry-reset moves a `failed` task back to `pending`. -/
theorem C2_amended :
    (∀ (tasks : List TaskRow) (t : TaskRow), t ∈ tasks →
        (t.status = .completed ∨ t.status = .failed ∨ t.status = .cancelled) →
        t ∈ delete_repository_cancel_step tasks) ∧
    (∀ (tasks : List TaskRow) (t : TaskRow), t ∈ tasks → t.status = .interrupted →
        { t with status := .cancelled } ∈ delete_repository_cancel_step tasks) ∧
    (∀ t : TaskRow, t.status = .interrupted ∨ t.status = .cancelled →
        reset_task_for_retry t = t) ∧
    (∀ t : TaskRow, t.status = .failed → (reset_task_for_retry t).status = .pending) := by
  refine ⟨?_, ?_, ?_, ?_⟩
  · intro tasks t ht hst
    have hfilter : activeFilter t = false := by
      rcases hst with h | h | h <;> simp [activeFilter, h]
    unfold delete_repository_cancel_step
    exact List.mem_map.mpr ⟨t, ht, by simp [hfilter]⟩
  · intro tasks t ht hst
    have hfilter : activeFilter t = true := by simp [activeFilter, hst]
    unfold delete_repository_cancel_step
    exact List.mem_map.mpr ⟨t, ht, by simp [hfilter]⟩
  · intro t hst
    rcases hst with h | h <;> simp [reset_task_for_retry, h]
  · intro t hst
    simp [reset_task_for_retry, hst]

/-- Witness for the amended C2 at concrete inputs. -/
theorem C2_amended_witness :
    taskIn 3 .completed ∈ delete_repository_cancel_step [taskIn 3 .completed] ∧
    { taskIn 4 .interrupted with status := .cancelled } ∈
      delete_repository_cancel_step [taskIn 4 .interrupted] ∧
    reset_task_for_retry (taskIn 5 .cancelled) = taskIn 5 .cancelled ∧
    (reset_task_for_retry (taskIn 6 .failed)).status = .pending := by
  refine ⟨?_, ?_, ?_, ?_⟩
  · exact C2_amended.1 [taskIn 3 .completed] _ (by simp) (Or.inl rfl)
  · exact C2_amended.2.1 [taskIn 4 .interrupted] _ (by simp) rfl
  · exact C2_amended.2.2.1 _ (Or.inr rfl)
  · exact C2_amended.2.2.2 _ rfl

/-- C3 counterexample. The claim says every progress callback of every stage
detects the cancel flag before recording progress, so no further progress is
recorded once the flag is set. The embed stage's callback `_embed_progress`
never consults the Cancellation Registry (it takes no flag at all): with the
bus up it records a progress event unconditionally — also, therefore, after
the flag is set. -/
theorem C3_counterexample :
    (embed_progress (fun _ => .ok ()) 9 50 "msg".toList).delivered =
      [{ task_id := 9, status := "embedding".toList, progress_pct := 60,
         stage := "msg".toList }] := by
  have h : round1 (50 + (50 : ℚ) * (2 / 10)) = 60 := by
    norm_num [round1]
  simp [embed_progress, publish_, h]

/-- C3 amended: only the generate-stage callbacks check the Cancellation
Registry. `_wiki_progress` raises the sentinel before any update or
publication when the flag is set, and the runner's handler turns the
sentinel into a quiet exit (no `failed` mark, no event) while any other
exception marks the task `failed`; but `_embed_progress` publishes
unconditionally, so embed-stage progress can still be recorded after the
flag is set. -/
theorem C3_amended :
    (∀ (bus : ProgressEvent → Except PyErr Unit) (tid : Nat) (pct : ℚ) (msg : PyStr),
        (∀ ev, bus ev = .ok ()) → (embed_progress bus tid pct msg).delivered ≠ []) ∧
    (∀ (bus : ProgressEvent → Except PyErr Unit) (t : TaskRow) (tid : Nat)
        (pct : ℚ) (msg : PyStr),
        wiki_progress bus (.ok true) t tid pct msg = .error .taskCancelled) ∧
    (∀ (bus : ProgressEvent → Except PyErr Unit) (t : TaskRow) (tid : Nat) (stage : PyStr),
        run_task_exception_handler bus t tid stage .cancelSentinel = none) ∧
    (∀ (bus : ProgressEvent → Except PyErr Unit) (t : TaskRow) (tid : Nat)
        (stage msg : PyStr),
        ∃ t2 out, run_task_exception_handler bus t tid stage (.other msg) = some (t2, out) ∧
          t2.status = .failed) := by
  refine ⟨?_, ?_, ?_, ?_⟩
  · intro bus tid pct msg hbus
    simp [embed_progress, publish_, hbus]
  · intro bus t tid pct msg
    rfl
  · intro bus t tid stage
    rfl
  · intro bus t tid stage msg
    refine ⟨_, _, rfl, rfl⟩

/-- Witness for the amended C3 at a concrete input. -/
theorem C3_amended_witness :
    (embed_progress (fun _ => .ok ()) 9 50 "w".toList).delivered ≠ [] := by
  exact C3_amended.1 (fun _ => .ok ()) 9 50 "w".toList (fun _ => rfl)

/-- C10. `_publish` wraps payload construction and the Redis publish in
`try: … except Exception: pass`: whatever the bus does, it returns
normally, so a Progress Bus outage alone never aborts the pipeline or
touches task state. -/
theorem C10_publish_never_raises :
    ∀ (bus : ProgressEvent → Except PyErr Unit) (tid : Nat)
      (status stage : PyStr) (p : ℚ),
      (publish_ bus tid status p stage).result = .ok () := by
  intro bus tid status stage p
  simp only [publish_]
  split <;> rfl

/-- C9 counterexample. The claim says a code chunk of content length
`window + 1` (the ~6000-token budget, i.e. 24 001 characters) is split into
two overlapping sub-chunks; but `24001 // 4 = 6000 ≤ MAX_CHUNK_TOKENS`, so
`split_large_chunk` returns it unsplit. -/
theorem C9_counterexample :
    (chunkWith (List.replicate 24001 'a')).content.length = 24001 ∧
    split_large_chunk (chunkWith (List.replicate 24001 'a')) =
      [chunkWith (List.replicate 24001 'a')] := by
  have hc : (chunkWith (List.replicate 24001 'a')).content = List.replicate 24001 'a' := rfl
  have hlen : (chunkWith (List.replicate 24001 'a')).content.length = 24001 := by
    rw [hc, List.length_replicate]
  refine ⟨hlen, ?_⟩
  unfold split_large_chunk
  rw [hlen]
  norm_num [MAX_CHUNK_TOKENS]

/-- C9 amended. Boundary behaviour of `split_large_chunk` as the code has
it: any chunk of content length up to 24 003 characters (estimated tokens
`length // 4 ≤ 6000`) is returned unsplit — in particular at exactly the
window size 24 000, but also at window + 1; splitting starts at 24 004
characters, and a splitting chunk whose line count lies in [300, 560] is
cut into exactly two overlapping sub-chunks whose contents share the
20-line overlap region: the overlap's text is a suffix of the first
sub-chunk's content and a prefix of the second's. -/
theorem C9_amended (chunk : ChunkNode) :
    (chunk.content.length ≤ 24003 → split_large_chunk chunk = [chunk]) ∧
    (24004 ≤ chunk.content.length →
      300 ≤ (chunk.content.splitOn '\n').length →
      (chunk.content.splitOn '\n').length ≤ 560 →
      (split_large_chunk chunk =
        [makeSubChunk chunk (chunk.content.splitOn '\n') 0 300 0,
         makeSubChunk chunk (chunk.content.splitOn '\n') 280
           (chunk.content.splitOn '\n').length 1] ∧
       (makeSubChunk chunk (chunk.content.splitOn '\n') 0 300 0).content =
         List.intercalate ['\n'] ((chunk.content.splitOn '\n').take 300) ∧
       (makeSubChunk chunk (chunk.content.splitOn '\n') 280
           (chunk.content.splitOn '\n').length 1).content =
         List.intercalate ['\n'] ((chunk.content.splitOn '\n').drop 280) ∧
       List.intercalate ['\n'] (((chunk.content.splitOn '\n').drop 280).take 20) <:+
         (makeSubChunk chunk (chunk.content.splitOn '\n') 0 300 0).content ∧
       List.intercalate ['\n'] (((chunk.content.splitOn '\n').drop 280).take 20) <+:
         (makeSubChunk chunk (chunk.content.splitOn '\n') 280
           (chunk.content.splitOn '\n').length 1).content)) := by
  constructor
  · intro h
    have hdiv : chunk.content.length / 4 ≤ 6000 := by
      have := Nat.div_le_div_right (c := 4) h
      omega
    unfold split_large_chunk
    simp [MAX_CHUNK_TOKENS, hdiv]
  · intro h24 h300 h560
    set lines := chunk.content.splitOn '\n' with hlines
    set L := lines.length with hL
    have hgt : ¬ (chunk.content.length / 4 ≤ MAX_CHUNK_TOKENS) := by
      have : 6001 * 4 ≤ chunk.content.length := by omega
      have h6001 : 6001 ≤ chunk.content.length / 4 := (Nat.le_div_iff_mul_le (by norm_num)).mpr this
      simp [MAX_CHUNK_TOKENS]
      omega
    have hw : window_size = 300 := by norm_num [window_size, MAX_CHUNK_TOKENS]
    have hs : chunk_step = 280 := by
      norm_num [chunk_step, window_size, MAX_CHUNK_TOKENS, OVERLAP_LINES]
    have hsplit : split_large_chunk chunk = slideLoop chunk lines 0 0 := by
      unfold split_large_chunk
      rw [if_neg hgt]
    have hstep1 : slideLoop chunk lines 0 0 =
        makeSubChunk chunk lines 0 300 0 :: slideLoop chunk lines 280 1 := by
      rw [slideLoop, dif_pos (by omega : 0 < lines.length)]
      rw [hw, hs]
      have hmin : min (0 + 300) L = 300 := by omega
      rw [← hL, hmin]
    have hstep2 : slideLoop chunk lines 280 1 =
        makeSubChunk chunk lines 280 L 1 :: slideLoop chunk lines 560 2 := by
      rw [slideLoop, dif_pos (by omega : 280 < lines.length)]
      rw [hw, hs]
      have hmin : min (280 + 300) L = L := by omega
      rw [← hL, hmin]
    have hstep3 : slideLoop chunk lines 560 2 = [] := by
      rw [slideLoop, dif_neg (by omega : ¬ 560 < lines.length)]
    have hcut : split_large_chunk chunk =
        [makeSubChunk chunk lines 0 300 0, makeSubChunk chunk lines 280 L 1] := by
      rw [hsplit, hstep1, hstep2, hstep3]
    have hc1 : (makeSubChunk chunk lines 0 300 0).content =
        List.intercalate ['\n'] (lines.take 300) := by
      simp [makeSubChunk]
    have hdroplen : (lines.drop 280).length = L - 280 := by
      simp [hL]
    have hc2 : (makeSubChunk chunk lines 280 L 1).content =
        List.intercalate ['\n'] (lines.drop 280) := by
      simp only [makeSubChunk]
      rw [List.take_of_length_le (by omega : (lines.drop 280).length ≤ L - 280)]
    have htake300 : lines.take 300 = lines.take 280 ++ (lines.drop 280).take 20 := by
      rw [show (300 : Nat) = 280 + 20 from rfl, List.take_add]
    have hA : lines.take 280 ≠ [] := by
      have : (lines.take 280).length = 280 := by
        rw [List.length_take]
        omega
      intro hnil
      rw [hnil] at this
      simp at this
    have hB : (lines.drop 280).take 20 ≠ [] := by
      have : ((lines.drop 280).take 20).length = 20 := by
        rw [List.length_take]
        omega
      intro hnil
      rw [hnil] at this
      simp at this
    have hsuffix : List.intercalate ['\n'] ((lines.drop 280).take 20) <:+
        (makeSubChunk chunk lines 0 300 0).content := by
      rw [hc1, htake300, intercalate_append_nonempty _ _ _ hA hB]
      exact List.suffix_append _ _
    have hpre : List.intercalate ['\n'] ((lines.drop 280).take 20) <+:
        (makeSubChunk chunk lines 280 L 1).content := by
      rw [hc2]
      by_cases hrest : (lines.drop 280).drop 20 = []
      · have heq : (lines.drop 280).take 20 = lines.drop 280 := by
          conv_rhs => rw [← List.take_append_drop 20 (lines.drop 280)]
          rw [hrest, List.append_nil]
        rw [heq]
      · conv_rhs => rw [← List.take_append_drop 20 (lines.drop 280)]
        rw [intercalate_append_nonempty _ _ _ hB hrest, List.append_assoc]
        exact List.prefix_append _ _
    exact ⟨hcut, hc1, hc2, hsuffix, hpre⟩

/-- Witness for the amended C9: a 30 299-character chunk of 300 lines is
split into exactly the two overlapping sub-chunks. -/
theorem C9_amended_witness :
    24004 ≤ (chunkWith wideContent).content.length ∧
    300 ≤ ((chunkWith wideContent).content.splitOn '\n').length ∧
    ((chunkWith wideContent).content.splitOn '\n').length ≤ 560 ∧
    split_large_chunk (chunkWith wideContent) =
      [makeSubChunk (chunkWith wideContent)
         ((chunkWith wideContent).content.splitOn '\n') 0 300 0,
       makeSubChunk (chunkWith wideContent)
         ((chunkWith wideContent).content.splitOn '\n') 280
         ((chunkWith wideContent).content.splitOn '\n').length 1] := by
  have hcontent : (chunkWith wideContent).content = wideContent := rfl
  have hne : List.replicate 300 (List.replicate 100 'a') ≠ [] := by
    intro h
    have hlen0 := congrArg List.length h
    rw [List.length_replicate] at hlen0
    simp at hlen0
  have hsplitOn : wideContent.splitOn '\n' = List.replicate 300 (List.replicate 100 'a') := by
    unfold wideContent
    refine List.splitOn_intercalate _ '\n' ?_ hne
    · intro l hl
      rw [List.eq_of_mem_replicate hl]
      intro hmem
      exact absurd (List.eq_of_mem_replicate hmem) (by decide)
  have hlen : wideContent.length = 30299 := by
    unfold wideContent
    rw [length_intercalate_single _ _ hne]
    rw [List.map_replicate, List.length_replicate, List.sum_replicate,
      List.length_replicate, smul_eq_mul]
  have hL : (wideContent.splitOn '\n').length = 300 := by
    rw [hsplitOn, List.length_replicate]
  refine ⟨?_, ?_, ?_, ?_⟩
  · rw [hcontent, hlen]
    norm_num
  · rw [hcontent, hL]
  · rw [hcontent, hL]
    norm_num
  · exact ((C9_amended (chunkWith wideContent)).2
      (by rw [hcontent, hlen]; norm_num)
      (by rw [hcontent, hL])
      (by rw [hcontent, hL]; norm_num)).1

/-- C4. FileState rows are created or modified by `embed_chunks` only after
every embedding batch of the whole chunk list has succeeded and its vectors
have been added to the vector store: if any batch's embedding call fails,
the error propagates and the `file_states` table is exactly as before (only
the collection may hold the earlier batches); any change to `file_states`
implies the call returned successfully; and the parse stage touches neither
store. -/
theorem C4_filestate_only_after_embed_success :
    (∀ (api : List PyStr → Except PyErr (List (List ℚ))) (db : EmbedDb)
       (chunks : List ChunkNode) (fh : Option (List (PyStr × PyStr)))
       (commit : PyStr) (e : PyErr),
       (embed_chunks api db chunks fh commit).2 = .error e →
       (embed_chunks api db chunks fh commit).1.file_states = db.file_states) ∧
    (∀ (api : List PyStr → Except PyErr (List (List ℚ))) (db : EmbedDb)
       (chunks : List ChunkNode) (fh : Option (List (PyStr × PyStr))) (commit : PyStr),
       (embed_chunks api db chunks fh commit).1.file_states ≠ db.file_states →
       ∃ ids, (embed_chunks api db chunks fh commit).2 = .ok ids) ∧
    (∀ (env : ParserEnv) (db : EmbedDb) (files : List SrcFile) (force : Bool),
       (parse_stage env db files force).1 = db) := by
  have hmain : ∀ (api : List PyStr → Except PyErr (List (List ℚ))) (db : EmbedDb)
      (chunks : List ChunkNode) (fh : Option (List (PyStr × PyStr))) (commit : PyStr),
      (∃ e, (embed_chunks api db chunks fh commit).2 = .error e) →
      (embed_chunks api db chunks fh commit).1.file_states = db.file_states := by
    intro api db chunks fh commit ⟨e, herr⟩
    by_cases h : chunks.isEmpty
    · simp [embed_chunks, h] at herr
    · rcases hstep : embedBatchesLoop api db.collection [] (pyBatches 10 chunks) with ⟨col2, res⟩
      cases res with
      | error e2 => simp [embed_chunks, h, hstep]
      | ok ids =>
          cases fh with
          | none => simp [embed_chunks, h, hstep] at herr
          | some fhv => simp [embed_chunks, h, hstep] at herr
  refine ⟨fun api db chunks fh commit e herr => hmain api db chunks fh commit ⟨e, herr⟩,
    ?_, fun env db files force => rfl⟩
  intro api db chunks fh commit hne
  cases hres : (embed_chunks api db chunks fh commit).2 with
  | error e => exact absurd (hmain api db chunks fh commit ⟨e, hres⟩) hne
  | ok ids => exact ⟨ids, rfl⟩

/-- Witness for C4: a failing embedding provider propagates its error and
leaves `file_states` (one pre-existing row) untouched. -/
theorem C4_witness :
    (embed_chunks (fun _ => .error { msg := "boom".toList })
        { collection := [],
          file_states := [{ file_path := "old.py".toList, last_commit_hash := [],
                            file_hash := "h0".toList, chunk_ids := ["k1".toList],
                            chunk_count := 1 }] }
        [chunkWith "x".toList] (some []) []).2 = .error { msg := "boom".toList } ∧
    (embed_chunks (fun _ => .error { msg := "boom".toList })
        { collection := [],
          file_states := [{ file_path := "old.py".toList, last_commit_hash := [],
                            file_hash := "h0".toList, chunk_ids := ["k1".toList],
                            chunk_count := 1 }] }
        [chunkWith "x".toList] (some []) []).1.file_states =
      [{ file_path := "old.py".toList, last_commit_hash := [],
         file_hash := "h0".toList, chunk_ids := ["k1".toList], chunk_count := 1 }] := by
  have h1 : (embed_chunks (fun _ => .error { msg := "boom".toList })
      { collection := [],
        file_states := [{ file_path := "old.py".toList, last_commit_hash := [],
                          file_hash := "h0".toList, chunk_ids := ["k1".toList],
                          chunk_count := 1 }] }
      [chunkWith "x".toList] (some []) []).2 = .error { msg := "boom".toList } := by
    rw [embed_chunks]
    simp only [List.isEmpty_cons, Bool.false_eq_true, if_false]
    rw [pyBatches]
    simp [embedBatchesLoop]
  refine ⟨h1, ?_⟩
  exact C4_filestate_only_after_embed_success.1 _ _ _ _ _ _ h1

/-- C6. Incremental-threshold safety: whenever the fraction of wiki pages
whose relevant-files list intersects the case-normalized changed set
exceeds `FULL_REGEN_THRESHOLD = 0.65`, `update_wiki_incrementally` returns
`full_regen_suggested` with a human-readable reason and leaves the whole
tree — every page's content and summary and every section title —
untouched. The hypothesis `hqs` is the generator's invariant that
quick-start pages carry an empty relevant-files list (they are created with
`relevant_files=[]` everywhere in `wiki_generator.py`), which makes the
claim's fraction coincide with the code's dirty fraction. -/
theorem C6_threshold_safety (llm : WikiLLM) (tree : WikiTree) (changed : List PyStr)
    (hqs : ∀ s ∈ tree.sections, ∀ p ∈ s.pages, is_quick_start p = true →
      p.relevant_files = [])
    (hfrac : FULL_REGEN_THRESHOLD <
      ((((tree.sections.map (·.pages)).flatten.filter
          (page_dirty ((changed.filter pyTruthy).map norm_path))).length : ℚ) /
        (((tree.sections.map (·.pages)).flatten).length : ℚ))) :
    (update_wiki_incrementally llm (some tree) changed).1 = tree ∧
    (update_wiki_incrementally llm (some tree) changed).2.status = .full_regen_suggested ∧
    (update_wiki_incrementally llm (some tree) changed).2.suggestion_reason.isSome = true := by
  have hallne : (tree.sections.map (·.pages)).flatten ≠ [] := by
    intro h0
    rw [h0] at hfrac
    norm_num [FULL_REGEN_THRESHOLD] at hfrac
  have hcnne : (changed.filter pyTruthy).map norm_path ≠ [] := by
    intro h0
    rw [h0] at hfrac
    have hall0 : ((tree.sections.map (·.pages)).flatten.filter (page_dirty [])) = [] := by
      apply List.filter_eq_nil_iff.mpr
      intro p _
      simp [page_dirty]
    rw [hall0] at hfrac
    norm_num [FULL_REGEN_THRESHOLD] at hfrac
  have hfilter : ((tree.sections.map (·.pages)).flatten.filter
        (fun p => !is_quick_start p && page_dirty ((changed.filter pyTruthy).map norm_path) p)) =
      ((tree.sections.map (·.pages)).flatten.filter
        (page_dirty ((changed.filter pyTruthy).map norm_path))) := by
    apply List.filter_congr
    intro p hp
    rcases List.mem_flatten.mp hp with ⟨pl, hpl, hppl⟩
    rcases List.mem_map.mp hpl with ⟨s, hs, hspl⟩
    by_cases hq : is_quick_start p
    · have hrel : p.relevant_files = [] := hqs s hs p (hspl ▸ hppl) hq
      simp [hq, page_dirty, hrel]
    · simp [hq]
  unfold update_wiki_incrementally
  simp only [List.isEmpty_eq_true, hallne, if_false, hcnne, hfilter]
  rw [if_pos hfrac]
  exact ⟨rfl, rfl, rfl⟩

/-- Witness for C6: one page, one matching changed file, dirty fraction 1. -/
theorem C6_threshold_safety_witness :
    (update_wiki_incrementally c6llm (some c6tree) ["a.py".toList]).1 = c6tree ∧
    (update_wiki_incrementally c6llm (some c6tree) ["a.py".toList]).2.status =
      .full_regen_suggested := by
  have hfil : ((c6tree.sections.map (·.pages)).flatten.filter
      (page_dirty ((["a.py".toList].filter pyTruthy).map norm_path))) = [c6page] := by
    decide
  have hlen : ((c6tree.sections.map (·.pages)).flatten).length = 1 := by decide
  have h := C6_threshold_safety c6llm c6tree ["a.py".toList]
    (by decide)
    (by rw [hfil, hlen]; norm_num [FULL_REGEN_THRESHOLD])
  exact ⟨h.1, h.2.1⟩

theorem slideLoop_file_path (chunk : ChunkNode) (lines : List PyStr) :
    ∀ (n start pidx : Nat) (ch : ChunkNode), lines.length - start ≤ n →
      ch ∈ slideLoop chunk lines start pidx → ch.file_path = chunk.file_path := by
  intro n
  induction n with
  | zero =>
      intro start pidx ch hle hmem
      rw [slideLoop, dif_neg (by omega)] at hmem
      cases hmem
  | succ n ih =>
      intro start pidx ch hle hmem
      rw [slideLoop] at hmem
      by_cases h : start < lines.length
      · rw [dif_pos h] at hmem
        rcases List.mem_cons.mp hmem with heq | htail
        · rw [heq]
          rfl
        · have hstep : 0 < chunk_step := by decide
          exact ih (start + chunk_step) (pidx + 1) ch (by omega) htail
      · rw [dif_neg h] at hmem
        cases hmem

theorem split_large_chunk_file_path (chunk ch : ChunkNode)
    (hmem : ch ∈ split_large_chunk chunk) : ch.file_path = chunk.file_path := by
  unfold split_large_chunk at hmem
  by_cases h : chunk.content.length / 4 ≤ MAX_CHUNK_TOKENS
  · simp only [h, if_true] at hmem
    rcases List.mem_singleton.mp hmem with rfl
    rfl
  · simp only [h, if_false] at hmem
    exact slideLoop_file_path chunk _ _ 0 0 ch (le_refl _) hmem

theorem pyBatches_mem {α : Type} (bs : Nat) :
    ∀ (n : Nat) (l : List α) (b : List α) (x : α), l.length ≤ n →
      b ∈ pyBatches bs l → x ∈ b → x ∈ l := by
  intro n
  induction n with
  | zero =>
      intro l b x hle hb hx
      have : l = [] := List.eq_nil_of_length_eq_zero (by omega)
      subst this
      rw [pyBatches] at hb
      simp at hb
  | succ n ih =>
      intro l b x hle hb hx
      rw [pyBatches] at hb
      by_cases hc : bs = 0 || l.isEmpty
      · simp [hc] at hb
      · simp only [hc, Bool.false_eq_true, dif_neg, reduceDIte] at hb
        rcases List.mem_cons.mp hb with heq | htail
        · subst heq
          exact List.mem_of_mem_take hx
        · have hbs : bs ≠ 0 := by
            intro h0
            simp [h0] at hc
          have hlen : (l.drop bs).length ≤ n := by
            rcases l with _ | ⟨a, l2⟩
            · simp at hc
            · simp only [List.length_drop, List.length_cons] at hle ⊢
              omega
          exact List.mem_of_mem_drop (ih (l.drop bs) b x hlen htail hx)

theorem embedBatchesLoop_new_entries
    (api : List PyStr → Except PyErr (List (List ℚ))) :
    ∀ (batches : List (List ChunkNode)) (col : List VecEntry) (acc : List PyStr)
      (e : VecEntry), e ∈ (embedBatchesLoop api col acc batches).1 →
      e ∈ col ∨ ∃ b ∈ batches, ∃ ch ∈ b, e.id = ch.id ∧ e.metadata = ch.to_metadata := by
  intro batches
  induction batches with
  | nil =>
      intro col acc e he
      exact Or.inl he
  | cons batch rest ih =>
      intro col acc e he
      rw [embedBatchesLoop] at he
      cases hapi : api (batch.map (·.to_embedding_text)) with
      | error err =>
          rw [hapi] at he
          exact Or.inl he
      | ok embeddings =>
          rw [hapi] at he
          rcases ih _ _ e he with hcol | ⟨b, hb, ch, hch, hid, hmeta⟩
          · rcases List.mem_append.mp hcol with hold | hnew
            · exact Or.inl hold
            · rcases List.mem_map.mp hnew with ⟨⟨ch, v⟩, hzip, hentry⟩
              have hchb : ch ∈ batch := (List.of_mem_zip hzip).1
              exact Or.inr ⟨batch, List.mem_cons_self _ _, ch, hchb,
                by rw [← hentry], by rw [← hentry]⟩
          · exact Or.inr ⟨b, List.mem_cons_of_mem _ hb, ch, hch, hid, hmeta⟩

theorem find_row_of_nodup (fs : List FileStateRow) (row : FileStateRow) (P : PyStr)
    (hrow : row ∈ fs) (hpath : row.file_path = P)
    (hnodup : (fs.map (·.file_path)).Nodup) :
    fs.find? (fun r => r.file_path == P) = some row := by
  induction fs with
  | nil => cases hrow
  | cons a fs ih =>
      rw [List.map_cons, List.nodup_cons] at hnodup
      rcases List.mem_cons.mp hrow with rfl | hmem
      · rw [List.find?_cons_of_pos _ (by simp [hpath])]
      · have hne : a.file_path ≠ P := by
          intro heq
          apply hnodup.1
          rw [heq]
          exact List.mem_map.mpr ⟨row, hmem, hpath⟩
        rw [List.find?_cons_of_neg _ (by simp [hne])]
        exact ih hmem hnodup.2

theorem dictSet_not_mem (acc : List (PyStr × PyStr)) (k v P : PyStr)
    (hP : ∀ h, (P, h) ∉ acc) (hk : k ≠ P) : ∀ h, (P, h) ∉ dictSet acc k v := by
  intro h hmem
  unfold dictSet at hmem
  by_cases hany : acc.any (fun pr => pr.1 == k)
  · simp only [hany, if_true] at hmem
    rcases List.mem_map.mp hmem with ⟨pr, hpr, himg⟩
    by_cases hprk : pr.1 == k
    · rw [if_pos hprk] at himg
      have : pr.1 = P := congrArg Prod.fst himg
      rw [beq_iff_eq] at hprk
      exact hk (hprk ▸ this)
    · rw [if_neg hprk] at himg
      exact hP h (himg ▸ hpr)
  · simp only [hany, if_false] at hmem
    rcases List.mem_append.mp hmem with hin | hsing
    · exact hP h hin
    · rcases List.mem_singleton.mp hsing with heq
      exact hk (congrArg Prod.fst heq).symm

theorem classify_files_mem (env : ParserEnv) (files : List SrcFile)
    (ft : SrcFile × FType) (hmem : ft ∈ classify_files env files) : ft.1 ∈ files := by
  unfold classify_files at hmem
  rcases List.mem_filterMap.mp hmem with ⟨f, hf, hopt⟩
  by_cases hskip : env.should_skip f.relative_path
  · simp [hskip] at hopt
  · simp only [hskip, Bool.false_eq_true, if_false] at hopt
    cases hdet : env.detect_language f.relative_path with
    | some l =>
        rw [hdet] at hopt
        simp only [Option.some.injEq] at hopt
        rw [← hopt]
        exact hf
    | none =>
        rw [hdet] at hopt
        by_cases hdoc : env.is_doc_file f.relative_path
        · simp only [hdoc, if_true, Option.some.injEq] at hopt
          rw [← hopt]
          exact hf
        · simp only [hdoc, Bool.false_eq_true, if_false] at hopt
          by_cases hcfg : env.is_config_file f.relative_path
          · simp only [hcfg, if_true, Option.some.injEq] at hopt
            rw [← hopt]
            exact hf
          · simp [hcfg] at hopt

theorem parse_one_skip_or_new (env : ParserEnv) (file_states : List FileStateRow)
    (P H : PyStr) (row : FileStateRow)
    (hrow : row ∈ file_states) (hrowP : row.file_path = P) (hrowH : row.file_hash = H)
    (hnodup : (file_states.map (·.file_path)).Nodup)
    (hast : ∀ p c l r, env.ast_parse_file p c l = .ok r → ∀ ch ∈ r, ch.file_path = p)
    (hdoc : ∀ p c l r, env.parse_doc_file p c l = .ok r → ∀ ch ∈ r, ch.file_path = p)
    (hcfg : ∀ p c r, env.parse_config_file p c = .ok r → ∀ ch ∈ r, ch.file_path = p)
    (acc : List ChunkNode × List (PyStr × PyStr)) (ft : SrcFile × FType)
    (hfH : ft.1.relative_path = P → env.sha256 ft.1.content = H) :
    parse_one env file_states false acc ft = acc ∨
    (ft.1.relative_path ≠ P ∧
      ∃ newChunks, (∀ ch ∈ newChunks, ch.file_path = ft.1.relative_path) ∧
        parse_one env file_states false acc ft =
          (acc.1 ++ newChunks, dictSet acc.2 ft.1.relative_path (env.sha256 ft.1.content))) := by
  rcases ft with ⟨f, ty⟩
  have hunchanged_of_P : f.relative_path = P →
      (match file_states.find? (fun r => r.file_path == f.relative_path) with
        | some r => r.file_hash == env.sha256 f.content && !false
        | none => false) = true := by
    intro hfp
    have hsha : env.sha256 f.content = H := hfH hfp
    have hfind : file_states.find? (fun r => r.file_path == f.relative_path) = some row := by
      rw [hfp]
      exact find_row_of_nodup file_states row P hrow hrowP hnodup
    rw [hfind]
    simp [hrowH, hsha]
  cases ty with
  | code =>
      cases hdet : env.detect_language f.relative_path with
      | none =>
          left
          simp [parse_one, hdet]
      | some lang =>
          by_cases hblank : (pyStrip f.content).isEmpty
          · left
            simp [parse_one, hdet, hblank]
          · by_cases hun : (match file_states.find? (fun r => r.file_path == f.relative_path) with
                | some r => r.file_hash == env.sha256 f.content && !false
                | none => false) = true
            · left
              simp only [parse_one, hdet, hblank, Bool.false_eq_true, if_false]
              simp only [Option.isSome_some, Bool.not_true, Bool.and_false,
                Bool.false_eq_true, if_false]
              rw [if_pos hun]
            · have hfp : f.relative_path ≠ P := fun h => hun (hunchanged_of_P h)
              cases hparse : env.ast_parse_file f.relative_path f.content lang with
              | error e =>
                  left
                  simp only [parse_one, hdet, hblank, Bool.false_eq_true, if_false]
                  simp only [Option.isSome_some, Bool.not_true, Bool.and_false,
                    Bool.false_eq_true, if_false]
                  rw [if_neg hun, hparse]
              | ok raw =>
                  right
                  refine ⟨hfp, (raw.map split_large_chunk).flatten, ?_, ?_⟩
                  · intro ch hch
                    rcases List.mem_flatten.mp hch with ⟨l2, hl2, hchl2⟩
                    rcases List.mem_map.mp hl2 with ⟨r, hr, hrl2⟩
                    rw [← hrl2] at hchl2
                    rw [split_large_chunk_file_path r ch hchl2]
                    exact hast _ _ _ _ hparse r hr
                  · simp only [parse_one, hdet, hblank, Bool.false_eq_true, if_false]
                    simp only [Option.isSome_some, Bool.not_true, Bool.and_false,
                      Bool.false_eq_true, if_false]
                    rw [if_neg hun, hparse]
  | doc =>
      by_cases hblank : (pyStrip f.content).isEmpty
      · left
        simp [parse_one, hblank]
      · by_cases hun : (match file_states.find? (fun r => r.file_path == f.relative_path) with
            | some r => r.file_hash == env.sha256 f.content && !false
            | none => false) = true
        · left
          simp only [parse_one, hblank, Bool.false_eq_true, if_false, Bool.and_false, Bool.false_eq_true, if_false, reduceCtorEq]
          rw [if_pos hun]
          rfl
        · have hfp : f.relative_path ≠ P := fun h => hun (hunchanged_of_P h)
          cases hparse : env.parse_doc_file f.relative_path f.content
              (env.detect_doc_language f.relative_path) with
          | error e =>
              left
              simp only [parse_one, hblank, Bool.false_eq_true, if_false, reduceCtorEq, Bool.and_false, Bool.false_eq_true, if_false]
              rw [if_neg hun, hparse]
              rfl
          | ok raw =>
              right
              refine ⟨hfp, raw, fun ch hch => hdoc _ _ _ _ hparse ch hch, ?_⟩
              simp only [parse_one, hblank, Bool.false_eq_true, if_false, reduceCtorEq, Bool.and_false, Bool.false_eq_true, if_false]
              rw [if_neg hun, hparse]
              rfl
  | config =>
      by_cases hblank : (pyStrip f.content).isEmpty
      · left
        simp [parse_one, hblank]
      · by_cases hun : (match file_states.find? (fun r => r.file_path == f.relative_path) with
            | some r => r.file_hash == env.sha256 f.content && !false
            | none => false) = true
        · left
          simp only [parse_one, hblank, Bool.false_eq_true, if_false, reduceCtorEq, Bool.and_false, Bool.false_eq_true, if_false]
          rw [if_pos hun]
          rfl
        · have hfp : f.relative_path ≠ P := fun h => hun (hunchanged_of_P h)
          cases hparse : env.parse_config_file f.relative_path f.content with
          | error e =>
              left
              simp only [parse_one, hblank, Bool.false_eq_true, if_false, reduceCtorEq, Bool.and_false, Bool.false_eq_true, if_false]
              rw [if_neg hun, hparse]
              rfl
          | ok raw =>
              right
              refine ⟨hfp, raw, fun ch hch => hcfg _ _ _ hparse ch hch, ?_⟩
              simp only [parse_one, hblank, Bool.false_eq_true, if_false, reduceCtorEq, Bool.and_false, Bool.false_eq_true, if_false]
              rw [if_neg hun, hparse]
              rfl

theorem embed_chunks_collection (api : List PyStr → Except PyErr (List (List ℚ)))
    (db : EmbedDb) (chunks : List ChunkNode) (fh : Option (List (PyStr × PyStr)))
    (commit : PyStr) :
    (embed_chunks api db chunks fh commit).1.collection =
      (if chunks.isEmpty then db.collection
       else (embedBatchesLoop api db.collection [] (pyBatches 10 chunks)).1) := by
  by_cases h : chunks.isEmpty
  · simp [embed_chunks, h]
  · rcases hstep : embedBatchesLoop api db.collection [] (pyBatches 10 chunks) with ⟨col2, res⟩
    cases res with
    | error e2 => simp [embed_chunks, h, hstep]
    | ok ids =>
        cases fh with
        | none => simp [embed_chunks, h, hstep]
        | some fhv => simp [embed_chunks, h, hstep]

/-- C7. Idempotency of re-processing: when a FileState row for path `P`
records exactly the SHA-256 of `P`'s current content and the full-rebuild
flag is unset, `parse_repository` emits no chunk for `P` and no entry for
`P` in the returned path-to-hash map, and a subsequent `embed_chunks` run
on that chunk list adds no vector-store entry for `P`. The parser oracles
are only assumed to stamp chunks with the path they were invoked on. -/
theorem C7_idempotency (env : ParserEnv) (file_states : List FileStateRow)
    (files : List SrcFile) (P H : PyStr) (row : FileStateRow)
    (hrow : row ∈ file_states) (hrowP : row.file_path = P) (hrowH : row.file_hash = H)
    (hnodup : (file_states.map (·.file_path)).Nodup)
    (hH : ∀ f ∈ files, f.relative_path = P → env.sha256 f.content = H)
    (hast : ∀ p c l r, env.ast_parse_file p c l = .ok r → ∀ ch ∈ r, ch.file_path = p)
    (hdoc : ∀ p c l r, env.parse_doc_file p c l = .ok r → ∀ ch ∈ r, ch.file_path = p)
    (hcfg : ∀ p c r, env.parse_config_file p c = .ok r → ∀ ch ∈ r, ch.file_path = p) :
    (∀ ch ∈ (parse_repository env file_states files false).1, ch.file_path ≠ P) ∧
    (∀ h, (P, h) ∉ (parse_repository env file_states files false).2) ∧
    (∀ (api : List PyStr → Except PyErr (List (List ℚ))) (db : EmbedDb)
       (fh : Option (List (PyStr × PyStr))) (commit : PyStr) (e : VecEntry),
       e ∈ (embed_chunks api db (parse_repository env file_states files false).1
              fh commit).1.collection →
       e ∉ db.collection → e.metadata.file_path ≠ P) := by
  have hfold : ∀ (cl : List (SrcFile × FType)),
      (∀ ft ∈ cl, ft.1.relative_path = P → env.sha256 ft.1.content = H) →
      ∀ acc : List ChunkNode × List (PyStr × PyStr),
      (∀ ch ∈ acc.1, ch.file_path ≠ P) → (∀ h, (P, h) ∉ acc.2) →
      (∀ ch ∈ (cl.foldl (parse_one env file_states false) acc).1, ch.file_path ≠ P) ∧
      (∀ h, (P, h) ∉ (cl.foldl (parse_one env file_states false) acc).2) := by
    intro cl
    induction cl with
    | nil =>
        intro _ acc h1 h2
        exact ⟨h1, h2⟩
    | cons ft cl ih =>
        intro hcl acc h1 h2
        simp only [List.foldl_cons]
        rcases parse_one_skip_or_new env file_states P H row hrow hrowP hrowH hnodup
            hast hdoc hcfg acc ft (hcl ft (List.mem_cons_self _ _)) with
          heq | ⟨hfp, newChunks, hpaths, heq⟩
        · rw [heq]
          exact ih (fun ft2 hft2 => hcl ft2 (List.mem_cons_of_mem _ hft2)) acc h1 h2
        · rw [heq]
          refine ih (fun ft2 hft2 => hcl ft2 (List.mem_cons_of_mem _ hft2)) _ ?_ ?_
          · intro ch hch
            rcases List.mem_append.mp hch with hold | hnew
            · exact h1 ch hold
            · rw [hpaths ch hnew]
              exact hfp
          · exact dictSet_not_mem acc.2 _ _ P h2 hfp
  have hcl : ∀ ft ∈ classify_files env files, ft.1.relative_path = P →
      env.sha256 ft.1.content = H :=
    fun ft hft => hH ft.1 (classify_files_mem env files ft hft)
  have hmain := hfold (classify_files env files) hcl ([], [])
    (by intro ch hch; cases hch) (by intro h hmem; cases hmem)
  refine ⟨hmain.1, hmain.2, ?_⟩
  intro api db fh commit e he hnotold
  rw [embed_chunks_collection] at he
  by_cases hempty : (parse_repository env file_states files false).1.isEmpty
  · rw [if_pos hempty] at he
    exact absurd he hnotold
  · rw [if_neg hempty] at he
    rcases embedBatchesLoop_new_entries api _ _ _ e he with hold | ⟨b, hb, ch, hch, _, hmeta⟩
    · exact absurd hold hnotold
    · have hchin : ch ∈ (parse_repository env file_states files false).1 :=
        pyBatches_mem 10 (parse_repository env file_states files false).1.length _ b ch
          (le_refl _) hb hch
      rw [hmeta]
      show ch.to_metadata.file_path ≠ P
      exact hmain.1 ch hchin

/-- Witness for C7 at a concrete repository state. -/
theorem C7_idempotency_witness :
    c7row ∈ [c7row] ∧ c7row.file_hash = "HASH".toList ∧
    (∀ ch ∈ (parse_repository c7env [c7row] [c7file] false).1,
       ch.file_path ≠ "a.py".toList) := by
  have h := C7_idempotency c7env [c7row] [c7file] "a.py".toList "HASH".toList c7row
    (List.mem_singleton.mpr rfl) rfl rfl (by simp)
    (fun f _ _ => rfl)
    (by
      intro p c l r hok ch hch
      simp only [c7env] at hok
      rw [Except.ok.injEq] at hok
      rw [← hok] at hch
      rw [List.mem_singleton.mp hch]
      rfl)
    (by
      intro p c l r hok ch hch
      simp only [c7env] at hok
      rw [Except.ok.injEq] at hok
      rw [← hok] at hch
      rw [List.mem_singleton.mp hch]
      rfl)
    (by
      intro p c r hok ch hch
      simp only [c7env] at hok
      rw [Except.ok.injEq] at hok
      rw [← hok] at hch
      rw [List.mem_singleton.mp hch]
      rfl)
  exact ⟨List.mem_singleton.mpr rfl, rfl, h.1⟩

theorem pyStrip_eq_nil_all_space (s : PyStr) (h : pyStrip s = []) :
    ∀ c ∈ s, spaceClass c = true := by
  unfold pyStrip at h
  rw [List.reverse_eq_nil_iff, List.dropWhile_eq_nil_iff] at h
  intro c hc
  rcases List.mem_append.mp (by
      rw [List.takeWhile_append_dropWhile (p := spaceClass)]
      exact hc :
    c ∈ s.takeWhile spaceClass ++ s.dropWhile spaceClass) with htake | hdrop
  · exact List.mem_takeWhile_imp htake
  · exact h c (List.mem_reverse.mpr hdrop)

theorem decode_rename (stat old new : PyStr) (cs : PyStr) (hstat : stat = 'R' :: cs)
    (ht1 : '\t' ∉ stat) (ht2 : '\t' ∉ old) (ht3 : '\t' ∉ new) :
    decode_diff_line (stat ++ '\t' :: old ++ '\t' :: new) = .ok [('D', old), ('A', new)] := by
  subst hstat
  have hline : ('R' :: cs) ++ '\t' :: old ++ '\t' :: new =
      List.intercalate ['\t'] [('R' :: cs), old, new] := by
    simp [List.intercalate, List.intersperse]
  have hsplit : (('R' :: cs) ++ '\t' :: old ++ '\t' :: new).splitOn '\t' =
      [('R' :: cs), old, new] := by
    rw [hline]
    exact List.splitOn_intercalate _ '\t'
      (by
        intro l hl
        simp only [List.mem_cons, List.not_mem_nil, or_false] at hl
        rcases hl with rfl | rfl | rfl
        · exact ht1
        · exact ht2
        · exact ht3)
      (by simp)
  have hnotblank : ¬ (pyStrip (('R' :: cs) ++ '\t' :: old ++ '\t' :: new)).isEmpty = true := by
    intro hblank
    rw [List.isEmpty_eq_true] at hblank
    have := pyStrip_eq_nil_all_space _ hblank 'R' (by simp)
    simp [spaceClass] at this
  unfold decode_diff_line
  rw [if_neg hnotblank, hsplit]
  rfl

theorem delete_file_chunks_no_old (db : EmbedDb) (old : PyStr) (row : FileStateRow)
    (hnodup : (db.file_states.map (·.file_path)).Nodup)
    (hrow : row ∈ db.file_states) (hpath : row.file_path = old) :
    (∀ r ∈ (delete_file_chunks db old).file_states, r.file_path ≠ old) ∧
    (∀ e ∈ (delete_file_chunks db old).collection, e.id ∉ row.chunk_ids) := by
  have hfind : db.file_states.find? (fun r => r.file_path == old) = some row :=
    find_row_of_nodup db.file_states row old hrow hpath hnodup
  unfold delete_file_chunks
  rw [hfind]
  constructor
  · intro r hr heq
    have := List.of_mem_filter hr
    simp [heq] at this
  · intro e he hid
    by_cases hids : row.chunk_ids.isEmpty
    · rw [List.isEmpty_eq_true] at hids
      rw [hids] at hid
      cases hid
    · simp only [hids, Bool.false_eq_true, if_false] at he
      have hcont := List.of_mem_filter he
      rw [Bool.not_eq_true'] at hcont
      have : e.id ∉ row.chunk_ids := by simpa using hcont
      exact this hid

theorem apply_change_step_subset (st : EmbedDb × SyncStats) (ch : Char × PyStr) :
    ((apply_change_step st ch).1.file_states ⊆ st.1.file_states) ∧
    ((apply_change_step st ch).1.collection ⊆ st.1.collection) := by
  unfold apply_change_step delete_file_chunks
  split_ifs <;>
    first
      | exact ⟨fun r hr => hr, fun e he => he⟩
      | (constructor <;>
          (first
            | (intro r hr
               cases hfind : st.1.file_states.find? (fun r2 => r2.file_path == ch.2) with
               | none => rw [hfind] at hr; exact hr
               | some fs =>
                   rw [hfind] at hr
                   exact List.mem_of_mem_filter hr)
            | (intro e he
               cases hfind : st.1.file_states.find? (fun r2 => r2.file_path == ch.2) with
               | none => rw [hfind] at he; exact he
               | some fs =>
                   rw [hfind] at he
                   by_cases hids : fs.chunk_ids.isEmpty
                   · simp only [hids, if_true] at he
                     exact he
                   · simp only [hids, Bool.false_eq_true, if_false] at he
                     exact List.mem_of_mem_filter he)))

theorem no_old_step (old : PyStr) (ids : List PyStr) (st : EmbedDb × SyncStats)
    (ch : Char × PyStr) (h : no_old old ids st.1) :
    no_old old ids (apply_change_step st ch).1 := by
  refine ⟨fun r hr => h.1 r ((apply_change_step_subset st ch).1 hr),
    fun e he => h.2 e ((apply_change_step_subset st ch).2 he)⟩

theorem no_old_fold (old : PyStr) (ids : List PyStr) :
    ∀ (changes : List (Char × PyStr)) (st : EmbedDb × SyncStats),
      no_old old ids st.1 → no_old old ids (changes.foldl apply_change_step st).1 := by
  intro changes
  induction changes with
  | nil => exact fun st h => h
  | cons ch rest ih =>
      intro st h
      exact ih (apply_change_step st ch) (no_old_step old ids st ch h)

theorem apply_change_step_nodup (st : EmbedDb × SyncStats) (ch : Char × PyStr)
    (h : (st.1.file_states.map (·.file_path)).Nodup) :
    ((apply_change_step st ch).1.file_states.map (·.file_path)).Nodup := by
  unfold apply_change_step delete_file_chunks
  split_ifs <;>
    first
      | exact h
      | (cases hfind : st.1.file_states.find? (fun r2 => r2.file_path == ch.2) with
          | none => exact h
          | some fs =>
              show (List.map (fun x => x.file_path)
                (List.filter (fun r => !r.file_path == ch.2) st.1.file_states)).Nodup
              exact List.Sublist.nodup
                (List.Sublist.map (fun (x : FileStateRow) => x.file_path)
                  (List.filter_sublist st.1.file_states)) h)

theorem apply_change_step_keeps_row (st : EmbedDb × SyncStats) (ch : Char × PyStr)
    (row : FileStateRow) (hrow : row ∈ st.1.file_states)
    (hne : row.file_path ≠ ch.2) :
    row ∈ (apply_change_step st ch).1.file_states := by
  unfold apply_change_step delete_file_chunks
  split_ifs <;>
    first
      | exact hrow
      | (cases hfind : st.1.file_states.find? (fun r2 => r2.file_path == ch.2) with
          | none => exact hrow
          | some fs => exact List.mem_filter.mpr ⟨hrow, by simp [hne]⟩)

theorem apply_changes_deletes_old (old : PyStr) (row : FileStateRow) :
    ∀ (changes : List (Char × PyStr)) (st : EmbedDb × SyncStats),
      (st.1.file_states.map (·.file_path)).Nodup →
      row ∈ st.1.file_states → row.file_path = old →
      (('D', old) ∈ changes ∨ ('M', old) ∈ changes) →
      no_old old row.chunk_ids (changes.foldl apply_change_step st).1 := by
  intro changes
  induction changes with
  | nil =>
      intro st _ _ _ hmem
      rcases hmem with h | h <;> cases h
  | cons ch rest ih =>
      intro st hnodup hrow hpath hmem
      by_cases hdel : (ch = ('D', old) ∨ ch = ('M', old))
      · have hstep : no_old old row.chunk_ids (apply_change_step st ch).1 := by
          have hdfc := delete_file_chunks_no_old st.1 old row hnodup hrow hpath
          rcases hdel with rfl | rfl
          · simpa [apply_change_step] using hdfc
          · simpa [apply_change_step] using hdfc
        exact no_old_fold old row.chunk_ids rest _ hstep
      · have hmem2 : ('D', old) ∈ rest ∨ ('M', old) ∈ rest := by
          rcases hmem with h | h
          · rcases List.mem_cons.mp h with rfl | h2
            · exact absurd (Or.inl rfl) hdel
            · exact Or.inl h2
          · rcases List.mem_cons.mp h with rfl | h2
            · exact absurd (Or.inr rfl) hdel
            · exact Or.inr h2
        by_cases hchp : row.file_path = ch.2
        · -- a D/M whose char differs from D and M would keep the row; a D/M on
          -- the same path only removes it after also clearing its chunks; in
          -- either case we can reduce to the two generic facts below.
          by_cases hDM : ch.1 = 'D' ∨ ch.1 = 'M'
          · have hstep : no_old old row.chunk_ids (apply_change_step st ch).1 := by
              have hdfc := delete_file_chunks_no_old st.1 ch.2 row hnodup hrow hchp
              have hdfc2 : no_old old row.chunk_ids (delete_file_chunks st.1 ch.2) := by
                refine ⟨fun r hr => ?_, hdfc.2⟩
                intro heq
                exact hdfc.1 r hr (heq.trans (hpath ▸ hchp ▸ rfl))
              rcases hDM with h1 | h1
              · simpa [apply_change_step, h1] using hdfc2
              · have hnotD : ¬ ch.1 = 'D' := by
                  rw [h1]
                  decide
                simpa [apply_change_step, h1, hnotD] using hdfc2
            exact no_old_fold old row.chunk_ids rest _ hstep
          · have hkeep : row ∈ (apply_change_step st ch).1.file_states := by
              push_neg at hDM
              unfold apply_change_step
              rw [if_neg (by simpa using hDM.1), if_neg (by simpa using hDM.2)]
              split_ifs <;> exact hrow
            exact ih (apply_change_step st ch) (apply_change_step_nodup st ch hnodup)
              hkeep hpath hmem2
        · have hkeep := apply_change_step_keeps_row st ch row hrow hchp
          exact ih (apply_change_step st ch) (apply_change_step_nodup st ch hnodup)
            hkeep hpath hmem2

theorem apply_change_step_changed_paths (st : EmbedDb × SyncStats) (ch : Char × PyStr) :
    (apply_change_step st ch).2.changed_paths = st.2.changed_paths ++ [ch.2] := by
  unfold apply_change_step
  split_ifs <;> rfl

theorem fold_changed_paths :
    ∀ (changes : List (Char × PyStr)) (st : EmbedDb × SyncStats),
      (changes.foldl apply_change_step st).2.changed_paths =
        st.2.changed_paths ++ changes.map (·.2) := by
  intro changes
  induction changes with
  | nil => intro st; simp
  | cons ch rest ih =>
      intro st
      rw [List.foldl_cons, ih, apply_change_step_changed_paths]
      simp

theorem apply_change_step_added_mono (st : EmbedDb × SyncStats) (ch : Char × PyStr) :
    st.2.added ≤ (apply_change_step st ch).2.added := by
  unfold apply_change_step
  split_ifs <;> simp

theorem fold_added_mono :
    ∀ (changes : List (Char × PyStr)) (st : EmbedDb × SyncStats),
      st.2.added ≤ (changes.foldl apply_change_step st).2.added := by
  intro changes
  induction changes with
  | nil => intro st; exact le_refl _
  | cons ch rest ih =>
      intro st
      exact le_trans (apply_change_step_added_mono st ch) (ih (apply_change_step st ch))

theorem fold_added_of_memA (p : PyStr) :
    ∀ (changes : List (Char × PyStr)) (st : EmbedDb × SyncStats),
      ('A', p) ∈ changes →
      st.2.added + 1 ≤ (changes.foldl apply_change_step st).2.added := by
  intro changes
  induction changes with
  | nil =>
      intro st hmem
      cases hmem
  | cons ch rest ih =>
      intro st hmem
      rcases List.mem_cons.mp hmem with rfl | hmem2
      · have hstep : (apply_change_step st ('A', p)).2.added = st.2.added + 1 := by
          simp [apply_change_step]
        rw [List.foldl_cons]
        calc st.2.added + 1 = (apply_change_step st ('A', p)).2.added := hstep.symm
          _ ≤ _ := fold_added_mono rest _
      · rw [List.foldl_cons]
        calc st.2.added + 1 ≤ (apply_change_step st ch).2.added + 1 :=
              Nat.add_le_add_right (apply_change_step_added_mono st ch) 1
          _ ≤ _ := ih (apply_change_step st ch) hmem2

/-- C8. Rename decomposition: a `git diff --name-status` rename line
(status beginning `R`, then the old and the new path, tab-separated) is
decoded by the change detector as `delete(old)` followed by `add(new)` —
no `R` entry reaches downstream processing — and after applying any change
list containing that pair, FileState has no row for `old`, the chunk ids
previously listed for `old` are gone from the vector store, and `new` is
counted as an added file and is part of the changed paths handed to the
wiki generator. -/
theorem C8_rename_decomposition (stat cs old new : PyStr) (hstat : stat = 'R' :: cs)
    (ht1 : '\t' ∉ stat) (ht2 : '\t' ∉ old) (ht3 : '\t' ∉ new)
    (changes : List (Char × PyStr)) (db : EmbedDb) (row : FileStateRow)
    (hnodup : (db.file_states.map (·.file_path)).Nodup)
    (hrow : row ∈ db.file_states) (hpath : row.file_path = old)
    (hD : ('D', old) ∈ changes) (hA : ('A', new) ∈ changes) :
    decode_diff_line (stat ++ '\t' :: old ++ '\t' :: new) = .ok [('D', old), ('A', new)] ∧
    (∀ r ∈ (apply_changes db changes).1.file_states, r.file_path ≠ old) ∧
    (∀ e ∈ (apply_changes db changes).1.collection, e.id ∉ row.chunk_ids) ∧
    new ∈ (apply_changes db changes).2.changed_paths ∧
    1 ≤ (apply_changes db changes).2.added := by
  have hno := apply_changes_deletes_old old row changes
    (db, { added := 0, modified := 0, deleted := 0, unchanged := 0, changed_paths := [] })
    hnodup hrow hpath (Or.inl hD)
  refine ⟨decode_rename stat old new cs hstat ht1 ht2 ht3, hno.1, hno.2, ?_, ?_⟩
  · rw [show apply_changes db changes = changes.foldl apply_change_step
        (db, { added := 0, modified := 0, deleted := 0, unchanged := 0,
               changed_paths := [] }) from rfl,
      fold_changed_paths]
    exact List.mem_append.mpr (Or.inr (List.mem_map.mpr ⟨('A', new), hA, rfl⟩))
  · have := fold_added_of_memA new changes
      (db, { added := 0, modified := 0, deleted := 0, unchanged := 0,
             changed_paths := [] }) hA
    simpa using this

/-- Witness for C8: the rename line `R100\told.py\tnew.py` on a store with
two chunks for `old.py`. -/
theorem C8_rename_decomposition_witness :
    decode_diff_line ("R100".toList ++ '\t' :: "old.py".toList ++ '\t' :: "new.py".toList) =
      .ok [('D', "old.py".toList), ('A', "new.py".toList)] ∧
    (∀ r ∈ (apply_changes c8db
        [('D', "old.py".toList), ('A', "new.py".toList)]).1.file_states,
       r.file_path ≠ "old.py".toList) ∧
    (∀ e ∈ (apply_changes c8db
        [('D', "old.py".toList), ('A', "new.py".toList)]).1.collection,
       e.id ∉ c8row.chunk_ids) ∧
    "new.py".toList ∈ (apply_changes c8db
        [('D', "old.py".toList), ('A', "new.py".toList)]).2.changed_paths := by
  have h := C8_rename_decomposition "R100".toList "100".toList "old.py".toList
    "new.py".toList (by decide) (by decide) (by decide) (by decide)
    [('D', "old.py".toList), ('A', "new.py".toList)] c8db c8row
    (by decide) (by decide) rfl (by decide) (by decide)
  exact ⟨h.1, h.2.1, h.2.2.1, h.2.2.2.1⟩

theorem takeWhile_append_of_all {p : Char → Bool} (l₁ l₂ : PyStr)
    (h : ∀ c ∈ l₁, p c = true) : (l₁ ++ l₂).takeWhile p = l₁ ++ l₂.takeWhile p := by
  induction l₁ with
  | nil => simp
  | cons a l ih =>
      simp only [List.cons_append, List.takeWhile_cons, h a (List.mem_cons_self a l), if_true]
      rw [ih (fun c hc => h c (List.mem_cons_of_mem a hc))]

theorem runsMatch_nil_inv {mid : PyStr} (h : RunsMatch [] mid) : mid = [] := by
  cases h
  rfl

theorem takeRuns_spec (runs : List ((Char → Bool) × Nat)) :
    ∀ (s : PyStr) (k : Nat), takeRuns runs s = some k →
      k ≤ s.length ∧ RunsMatch runs (s.take k) := by
  induction runs with
  | nil =>
      intro s k h
      simp only [takeRuns, Option.some.injEq] at h
      rw [← h]
      exact ⟨Nat.zero_le _, by simpa using RunsMatch.nil⟩
  | cons pr rs ih =>
      intro s k h
      rcases pr with ⟨p, m⟩
      simp only [takeRuns] at h
      set w := s.takeWhile p with hw
      by_cases hm : m ≤ w.length
      · rw [if_pos hm] at h
        rcases Option.map_eq_some'.mp h with ⟨k', hk', hkk⟩
        rcases List.takeWhile_prefix (p := p) (l := s) with ⟨t, ht⟩
        rw [← hw] at ht
        have hdrop : s.drop w.length = t := by
          rw [← ht, List.drop_left]
        rw [hdrop] at hk'
        rcases ih t k' hk' with ⟨hle, hrm⟩
        subst hkk
        constructor
        · rw [← ht, List.length_append]
          omega
        · have htake : s.take (w.length + k') = w ++ t.take k' := by
            rw [← ht, List.take_append_eq_append_take,
              List.take_of_length_le (by omega : w.length ≤ w.length + k')]
            have hk2 : w.length + k' - w.length = k' := by omega
            rw [hk2]
          rw [htake]
          refine RunsMatch.cons w p m rs (t.take k') ?_ hm hrm
          intro c hc
          rw [hw] at hc
          exact List.mem_takeWhile_imp hc
      · rw [if_neg hm] at h
        cases h

theorem take_append_len {α : Type} (a b : List α) (m : Nat) :
    (a ++ b).take (a.length + m) = a ++ b.take m := by
  rw [List.take_append_eq_append_take,
    List.take_of_length_le (Nat.le_add_right _ _), Nat.add_sub_cancel_left]

theorem matchAt_some_spec (pat : ScrubPat) (s : PyStr) (n : Nat)
    (h : matchAt pat s = some n) : n ≤ s.length ∧ LangMatch pat (s.take n) := by
  unfold matchAt at h
  by_cases hpre : pat.head.isPrefixOf s
  · rw [if_pos hpre] at h
    cases htr : takeRuns pat.runs (s.drop pat.head.length) with
    | none =>
        rw [htr] at h
        exact Option.noConfusion h
    | some k =>
        simp only [htr] at h
        by_cases htail : pat.tail.isPrefixOf (s.drop (pat.head.length + k))
        · rw [if_pos htail, Option.some.injEq] at h
          rcases takeRuns_spec pat.runs _ _ htr with ⟨hkle, hrm⟩
          have hheadpre : pat.head <+: s := List.isPrefixOf_iff_prefix.mp hpre
          rcases hheadpre with ⟨s2, hs2⟩
          have hs2' : s.drop pat.head.length = s2 := by
            rw [← hs2, List.drop_left]
          rw [hs2'] at hkle hrm htr
          have htailpre : pat.tail <+: s2.drop k := by
            have h2 := List.isPrefixOf_iff_prefix.mp htail
            have hsd : s.drop (pat.head.length + k) = s2.drop k := by
              rw [← hs2']
              rw [List.drop_drop]
            rwa [hsd] at h2
          rcases htailpre with ⟨t2, ht2⟩
          have hlen2 : pat.tail.length + t2.length = s2.length - k := by
            have hcl := congrArg List.length ht2
            rw [List.length_append, List.length_drop] at hcl
            omega
          constructor
          · rw [← h, ← hs2, List.length_append]
            omega
          · rw [← h]
            refine ⟨s2.take k, ?_, hrm⟩
            have hdecomp : s = pat.head ++ (s2.take k ++ (pat.tail ++ t2)) := by
              rw [← hs2]
              congr 1
              rw [ht2, List.take_append_drop]
            have hsum : pat.head.length + k + pat.tail.length =
                pat.head.length + (k + pat.tail.length) := by omega
            rw [hsum, hdecomp, take_append_len]
            have hlk : (s2.take k).length = k := by
              rw [List.length_take]
              omega
            have hsum2 : k + pat.tail.length = (s2.take k).length + pat.tail.length := by
              rw [hlk]
            rw [hsum2, take_append_len, List.take_left, ← List.append_assoc]
        · rw [if_neg htail] at h
          cases h
  · rw [if_neg hpre] at h
    cases h

theorem matchAt_nil (pat : ScrubPat) (hh : pat.head ≠ []) : matchAt pat [] = none := by
  unfold matchAt
  cases hhead : pat.head with
  | nil => cases hh hhead
  | cons c cs => rfl

theorem matchAt_pos (pat : ScrubPat) (s : PyStr) (n : Nat) (hh : pat.head ≠ [])
    (h : matchAt pat s = some n) : 1 ≤ n ∧ s ≠ [] := by
  rcases matchAt_some_spec pat s n h with ⟨hle, m, hm, hrm⟩
  have hne : s.take n ≠ [] := by
    rw [hm]
    cases hhead : pat.head with
    | nil => cases hh hhead
    | cons c cs => simp
  constructor
  · by_contra hn
    push_neg at hn
    have hn0 : n = 0 := by omega
    rw [hn0] at hne
    simp at hne
  · intro hs
    rw [hs] at hne
    simp at hne
theorem takeRuns_cons (p : Char → Bool) (m : Nat) (rs : List ((Char → Bool) × Nat))
    (s : PyStr) :
    takeRuns ((p, m) :: rs) s
      = if m ≤ (s.takeWhile p).length then
          (takeRuns rs (s.drop (s.takeWhile p).length)).map ((s.takeWhile p).length + ·)
        else none := rfl

theorem takeRuns_complete {runs : List ((Char → Bool) × Nat)} {mid : PyStr}
    (hrm : RunsMatch runs mid) :
    ∀ (tl rest : PyStr), (∀ pr ∈ runs, 1 ≤ pr.2) → runsChain runs tl →
      ∃ k, takeRuns runs (mid ++ (tl ++ rest)) = some k ∧
        (tl ≠ [] → k = mid.length) := by
  induction hrm with
  | nil =>
      intro tl rest _ _
      exact ⟨0, rfl, fun _ => rfl⟩
  | cons w p m rs restmid hw hlen htail ih =>
      intro tl rest hmins hchain
      cases rs with
      | nil =>
          have hrm0 : restmid = [] := runsMatch_nil_inv htail
          subst hrm0
          cases tl with
          | nil =>
              have hS : (w ++ []) ++ ([] ++ rest) = w ++ rest := by simp
              rw [hS, takeRuns_cons, takeWhile_append_of_all w rest hw]
              have hle : m ≤ (w ++ rest.takeWhile p).length := by
                rw [List.length_append]
                omega
              rw [if_pos hle]
              refine ⟨(w ++ rest.takeWhile p).length + 0, ?_, ?_⟩
              · have hdr : (w ++ rest).drop (w ++ rest.takeWhile p).length
                    = rest.dropWhile p := by
                  conv_lhs =>
                    rw [show w ++ rest
                      = (w ++ rest.takeWhile p) ++ rest.dropWhile p by
                        rw [List.append_assoc, List.takeWhile_append_dropWhile]]
                  rw [List.drop_left]
                rw [hdr]
                rfl
              · intro hfalse
                cases hfalse rfl
          | cons t ts =>
              have hpt : p t = false := hchain
              have hS : (w ++ []) ++ ((t :: ts) ++ rest) = w ++ (t :: (ts ++ rest)) := by
                simp
              rw [hS, takeRuns_cons, takeWhile_append_of_all w _ hw,
                List.takeWhile_cons_of_neg (by rw [hpt]; exact Bool.false_ne_true),
                List.append_nil, if_pos hlen, List.drop_left]
              refine ⟨w.length + 0, rfl, ?_⟩
              intro _
              simp
      | cons pr2 rs' =>
          rcases hchain with ⟨hdisj, hchain2⟩
          cases htail with
          | cons w2 p2 m2 rs2 rest2 hw2 hlen2 htail2 =>
              have hm2 : 1 ≤ m2 :=
                hmins (p2, m2) (List.mem_cons_of_mem _ (List.mem_cons_self _ _))
              cases w2 with
              | nil => simp at hlen2; omega
              | cons c2 w2' =>
                  have hpc2 : p c2 = false :=
                    hdisj c2 (hw2 c2 (List.mem_cons_self _ _))
                  have hS : (w ++ ((c2 :: w2') ++ rest2)) ++ (tl ++ rest)
                      = w ++ (c2 :: (w2' ++ (rest2 ++ (tl ++ rest)))) := by
                    simp [List.append_assoc]
                  rw [hS, takeRuns_cons, takeWhile_append_of_all w _ hw,
                    List.takeWhile_cons_of_neg (by rw [hpc2]; exact Bool.false_ne_true),
                    List.append_nil, if_pos hlen, List.drop_left]
                  rcases ih tl rest
                      (fun pr hpr => hmins pr (List.mem_cons_of_mem _ hpr)) hchain2 with
                    ⟨k', hk', hcond⟩
                  simp only [List.cons_append, List.append_assoc] at hk'
                  rw [hk']
                  refine ⟨w.length + k', rfl, ?_⟩
                  intro htl
                  rw [hcond htl, List.length_append]
                  simp [List.length_append]
                  omega

theorem matchAt_complete (pat : ScrubPat) (hwf : patWF pat) {m : PyStr}
    (hm : LangMatch pat m) (rest : PyStr) :
    ∃ n, matchAt pat (m ++ rest) = some n := by
  rcases hwf with ⟨hh, hmins, hchain⟩
  rcases hm with ⟨mid, hmeq, hrm⟩
  subst hmeq
  have hs : (pat.head ++ mid ++ pat.tail) ++ rest
      = pat.head ++ (mid ++ (pat.tail ++ rest)) := by
    simp [List.append_assoc]
  rw [hs]
  rcases takeRuns_complete hrm pat.tail rest hmins hchain with ⟨k, hk, hcond⟩
  refine ⟨pat.head.length + k + pat.tail.length, ?_⟩
  unfold matchAt
  rw [if_pos (List.isPrefixOf_iff_prefix.mpr ⟨_, rfl⟩), List.drop_left, hk]
  show (if pat.tail.isPrefixOf
      ((pat.head ++ (mid ++ (pat.tail ++ rest))).drop (pat.head.length + k)) = true then
    some (pat.head.length + k + pat.tail.length) else none)
    = some (pat.head.length + k + pat.tail.length)
  cases htl : pat.tail with
  | nil => rw [if_pos (List.isPrefixOf_iff_prefix.mpr List.nil_prefix)]
  | cons t ts =>
      have hkm : k = mid.length := hcond (by rw [htl]; exact fun habs => by cases habs)
      subst hkm
      have hd : (pat.head ++ (mid ++ ((t :: ts) ++ rest))).drop
          (pat.head.length + mid.length) = (t :: ts) ++ rest := by
        rw [← List.drop_drop, List.drop_left, List.drop_left]
      have hpre2 : (t :: ts).isPrefixOf ((pat.head ++ (mid ++ ((t :: ts) ++ rest))).drop
          (pat.head.length + mid.length)) = true := by
        rw [hd]
        exact List.isPrefixOf_iff_prefix.mpr ⟨rest, rfl⟩
      rw [if_pos hpre2]
theorem runsMatch_chars {runs : List ((Char → Bool) × Nat)} {mid : PyStr}
    (h : RunsMatch runs mid) : ∀ c ∈ mid, ∃ pr ∈ runs, pr.1 c = true := by
  induction h with
  | nil =>
      intro c hc
      cases hc
  | cons w p m rs rest hw hlen htail ih =>
      intro c hc
      rcases List.mem_append.mp hc with hcw | hcr
      · exact ⟨(p, m), List.mem_cons_self _ _, hw c hcw⟩
      · rcases ih c hcr with ⟨pr, hpr, hprc⟩
        exact ⟨pr, List.mem_cons_of_mem _ hpr, hprc⟩

theorem langMatch_chars {pat : ScrubPat} {m : PyStr} (h : LangMatch pat m) :
    ∀ c ∈ m, allowedChar pat c = true := by
  rcases h with ⟨mid, hm, hrm⟩
  subst hm
  intro c hc
  unfold allowedChar
  rw [Bool.or_eq_true, Bool.or_eq_true]
  rcases List.mem_append.mp hc with hc1 | hct
  · rcases List.mem_append.mp hc1 with hch | hcm
    · exact Or.inl (Or.inl (List.elem_eq_true_of_mem hch))
    · rcases runsMatch_chars hrm c hcm with ⟨pr, hpr, hprc⟩
      exact Or.inl (Or.inr (List.any_eq_true.mpr ⟨pr, hpr, hprc⟩))
  · exact Or.inr (List.elem_eq_true_of_mem hct)

theorem langMatch_ne_nil {pat : ScrubPat} {m : PyStr} (h : LangMatch pat m)
    (hh : pat.head ≠ []) : m ≠ [] := by
  rcases h with ⟨mid, hm, _⟩
  subst hm
  cases hhd : pat.head with
  | nil => cases hh hhd
  | cons c cs => simp

theorem noLangOcc_suffix {pat : ScrubPat} {s : PyStr} (h : noLangOcc pat s) (j : Nat) :
    noLangOcc pat (s.drop j) := by
  intro i m t hm habs
  rw [List.drop_drop] at habs
  exact h (j + i) m t hm habs

theorem exists_split_first {l : PyStr} (h : ('@' : Char) ∈ l) :
    ∃ mid t, l = mid ++ '@' :: t ∧ ∀ c ∈ mid, c ≠ '@' := by
  induction l with
  | nil => cases h
  | cons a l ih =>
      by_cases ha : a = '@'
      · subst ha
        exact ⟨[], l, rfl, fun c hc => absurd hc (List.not_mem_nil c)⟩
      · have hl : ('@' : Char) ∈ l := by
          rcases List.mem_cons.mp h with h1 | h2
          · cases ha h1.symm
          · exact h2
        rcases ih hl with ⟨mid, t, hsplit, hmid⟩
        refine ⟨a :: mid, t, by rw [hsplit]; rfl, ?_⟩
        intro c hc
        rcases List.mem_cons.mp hc with h1 | h2
        · rw [h1]; exact ha
        · exact hmid c h2

theorem scrubGo_cons_some (pat : ScrubPat) (repl : PyStr) (fuel : Nat) (c : Char)
    (rest : PyStr) (n : Nat) (hma : matchAt pat (c :: rest) = some n) :
    scrubGo pat repl (fuel + 1) (c :: rest)
      = repl ++ scrubGo pat repl fuel (rest.drop (n - 1)) := by
  show (match matchAt pat (c :: rest) with
    | some n => repl ++ scrubGo pat repl fuel (rest.drop (n - 1))
    | none => c :: scrubGo pat repl fuel rest) = _
  rw [hma]

theorem scrubGo_cons_none (pat : ScrubPat) (repl : PyStr) (fuel : Nat) (c : Char)
    (rest : PyStr) (hma : matchAt pat (c :: rest) = none) :
    scrubGo pat repl (fuel + 1) (c :: rest) = c :: scrubGo pat repl fuel rest := by
  show (match matchAt pat (c :: rest) with
    | some n => repl ++ scrubGo pat repl fuel (rest.drop (n - 1))
    | none => c :: scrubGo pat repl fuel rest) = _
  rw [hma]

theorem scrubGo_fuel_irrel (pat : ScrubPat) (repl : PyStr) :
    ∀ (f1 f2 : Nat) (s : PyStr), s.length ≤ f1 → s.length ≤ f2 →
      scrubGo pat repl f1 s = scrubGo pat repl f2 s := by
  intro f1
  induction f1 with
  | zero =>
      intro f2 s h1 h2
      cases s with
      | nil => cases f2 <;> rfl
      | cons c rest => simp at h1
  | succ a ih =>
      intro f2 s h1 h2
      cases s with
      | nil => cases f2 <;> rfl
      | cons c rest =>
          cases f2 with
          | zero => simp at h2
          | succ b =>
              have ha : rest.length ≤ a := by simp at h1; omega
              have hb : rest.length ≤ b := by simp at h2; omega
              cases hma : matchAt pat (c :: rest) with
              | some n =>
                  rw [scrubGo_cons_some pat repl a c rest n hma,
                    scrubGo_cons_some pat repl b c rest n hma,
                    ih b (rest.drop (n - 1))
                      (le_trans (by rw [List.length_drop]; omega) ha)
                      (le_trans (by rw [List.length_drop]; omega) hb)]
              | none =>
                  rw [scrubGo_cons_none pat repl a c rest hma,
                    scrubGo_cons_none pat repl b c rest hma, ih b rest ha hb]

theorem scrubGo_eq_scrubSub (pat : ScrubPat) (repl : PyStr) (fuel : Nat) (s : PyStr)
    (h : s.length ≤ fuel) : scrubGo pat repl fuel s = scrubSub pat repl s :=
  scrubGo_fuel_irrel pat repl fuel s.length s h (Nat.le_refl _)

theorem mem_scrubGo (pat : ScrubPat) (repl : PyStr) :
    ∀ (fuel : Nat) (s : PyStr) (c : Char), c ∈ scrubGo pat repl fuel s →
      c ∈ s ∨ c ∈ repl := by
  intro fuel
  induction fuel with
  | zero =>
      intro s c hc
      cases s with
      | nil => cases hc
      | cons a rest => exact Or.inl hc
  | succ f ih =>
      intro s c hc
      cases s with
      | nil => cases hc
      | cons a rest =>
          cases hma : matchAt pat (a :: rest) with
          | some n =>
              rw [scrubGo_cons_some pat repl f a rest n hma] at hc
              rcases List.mem_append.mp hc with hr | hrec
              · exact Or.inr hr
              · rcases ih _ c hrec with hs | hr
                · exact Or.inl (List.mem_cons_of_mem a (List.mem_of_mem_drop hs))
                · exact Or.inr hr
          | none =>
              rw [scrubGo_cons_none pat repl f a rest hma] at hc
              rcases List.mem_cons.mp hc with h1 | h2
              · exact Or.inl (h1 ▸ List.mem_cons_self _ _)
              · rcases ih rest c h2 with hs | hr
                · exact Or.inl (List.mem_cons_of_mem a hs)
                · exact Or.inr hr

theorem mem_scrubSub {pat : ScrubPat} {repl : PyStr} {s : PyStr} {c : Char}
    (hc : c ∈ scrubSub pat repl s) : c ∈ s ∨ c ∈ repl :=
  mem_scrubGo pat repl s.length s c hc

theorem scrubSub_shape (pat : ScrubPat) (repl : PyStr) (hh : pat.head ≠ [])
    (s : PyStr) :
    ((∀ i, i < s.length → matchAt pat (s.drop i) = none) ∧ scrubSub pat repl s = s)
    ∨ (∃ k n, k < s.length ∧ (∀ i, i < k → matchAt pat (s.drop i) = none)
        ∧ matchAt pat (s.drop k) = some n ∧ 1 ≤ n
        ∧ scrubSub pat repl s
            = s.take k ++ repl ++ scrubSub pat repl (s.drop (k + n))) := by
  induction s with
  | nil =>
      left
      constructor
      · intro i hi
        simp at hi
      · rfl
  | cons c rest ih =>
      cases hma : matchAt pat (c :: rest) with
      | some n =>
          right
          have hn : 1 ≤ n := (matchAt_pos pat (c :: rest) n hh hma).1
          refine ⟨0, n, by simp, fun i hi => absurd hi (Nat.not_lt_zero i), hma, hn, ?_⟩
          simp only [List.take_zero, List.nil_append, Nat.zero_add]
          show scrubGo pat repl (rest.length + 1) (c :: rest) = _
          rw [scrubGo_cons_some pat repl rest.length c rest n hma]
          have hdrop : (c :: rest).drop n = rest.drop (n - 1) := by
            cases n with
            | zero => omega
            | succ n' => simp
          rw [hdrop, scrubGo_eq_scrubSub pat repl rest.length (rest.drop (n - 1))
            (by rw [List.length_drop]; omega)]
      | none =>
          rcases ih with ⟨hml, heq⟩ | ⟨k, n, hk, hml, hmk, hn, heq⟩
          · left
            constructor
            · intro i hi
              cases i with
              | zero => exact hma
              | succ i' =>
                  rw [List.drop_succ_cons]
                  exact hml i' (by simp at hi; omega)
            · show scrubGo pat repl (rest.length + 1) (c :: rest) = c :: rest
              rw [scrubGo_cons_none pat repl rest.length c rest hma,
                scrubGo_eq_scrubSub pat repl rest.length rest (Nat.le_refl _), heq]
          · right
            refine ⟨k + 1, n, by simp; omega, ?_, ?_, hn, ?_⟩
            · intro i hi
              cases i with
              | zero => exact hma
              | succ i' =>
                  rw [List.drop_succ_cons]
                  exact hml i' (by omega)
            · rw [List.drop_succ_cons]
              exact hmk
            · show scrubGo pat repl (rest.length + 1) (c :: rest)
                = (c :: rest).take (k + 1) ++ repl
                  ++ scrubSub pat repl ((c :: rest).drop (k + 1 + n))
              rw [scrubGo_cons_none pat repl rest.length c rest hma,
                scrubGo_eq_scrubSub pat repl rest.length rest (Nat.le_refl _), heq]
              rw [List.take_succ_cons, List.cons_append, List.cons_append]
              congr 2
              rw [show k + 1 + n = (k + n) + 1 by omega, List.drop_succ_cons]
theorem scrub_no_occ_core (P Q : ScrubPat) (R : PyStr)
    (hQh : Q.head ≠ []) (hPh : P.head ≠ []) (hRne : R ≠ [])
    (hr0 : ∀ c cs, R = c :: cs → allowedChar Q c = false)
    (hh0 : ∀ c cs, Q.head = c :: cs → c ∉ R) :
    ∀ (L : Nat) (s : PyStr), s.length ≤ L →
      ((P = Q ∧ patWF Q) ∨ noLangOcc Q s) → noLangOcc Q (scrubSub P R s) := by
  intro L
  induction L with
  | zero =>
      intro s hs hsrc
      have hsnil : s = [] := List.eq_nil_of_length_eq_zero (Nat.le_zero.mp hs)
      subst hsnil
      intro i m t hLM habs
      have hm : m ≠ [] := langMatch_ne_nil hLM hQh
      have h0 : scrubSub P R [] = [] := rfl
      rw [h0, List.drop_nil] at habs
      rcases List.append_eq_nil.mp habs.symm with ⟨hm0, _⟩
      exact hm hm0
  | succ L ihL =>
      intro s hs hsrc
      rcases scrubSub_shape P R hPh s with ⟨hml, heq⟩ | ⟨k, n, hk, hml, hmk, hn1, heq⟩
      · rw [heq]
        rcases hsrc with ⟨hPQ, hwf⟩ | hocc
        · subst hPQ
          intro i m t hLM habs
          by_cases hi : i < s.length
          · rcases matchAt_complete P hwf hLM t with ⟨n', hn'⟩
            rw [← habs, hml i hi] at hn'
            cases hn'
          · have hnil : s.drop i = [] := List.drop_eq_nil_of_le (le_of_not_lt hi)
            rw [hnil] at habs
            rcases List.append_eq_nil.mp habs.symm with ⟨hm0, _⟩
            exact langMatch_ne_nil hLM hQh hm0
        · exact hocc
      · rw [heq]
        have hout' : noLangOcc Q (scrubSub P R (s.drop (k + n))) := by
          apply ihL
          · rw [List.length_drop]
            omega
          · rcases hsrc with hself | hocc
            · exact Or.inl hself
            · exact Or.inr (noLangOcc_suffix hocc (k + n))
        have hnoS : ∀ i, i < k → ∀ m t, LangMatch Q m → s.drop i ≠ m ++ t := by
          intro i hi m t hLM habs2
          rcases hsrc with ⟨hPQ, hwf⟩ | hocc
          · rcases matchAt_complete Q hwf hLM t with ⟨n', hn'⟩
            rw [hPQ] at hml
            rw [← habs2, hml i hi] at hn'
            cases hn'
          · exact hocc i m t hLM habs2
        intro i m t hLM habs
        have hA : (s.take k).length = k := by
          rw [List.length_take]
          omega
        by_cases hi1 : k + R.length ≤ i
        · have hdecomp : ((s.take k ++ R ++ scrubSub P R (s.drop (k + n))).drop i)
              = (scrubSub P R (s.drop (k + n))).drop (i - (k + R.length)) := by
            rw [List.append_assoc, List.drop_append_eq_append_drop,
              List.drop_eq_nil_of_le (by rw [hA]; omega), List.nil_append,
              List.drop_append_eq_append_drop,
              List.drop_eq_nil_of_le (by omega : R.length ≤ i - (s.take k).length),
              List.nil_append, hA]
            congr 1
            omega
          rw [hdecomp] at habs
          exact hout' _ m t hLM habs
        · push_neg at hi1
          by_cases hi2 : i < k
          · have hdecomp : ((s.take k ++ R ++ scrubSub P R (s.drop (k + n))).drop i)
                = (s.take k).drop i ++ (R ++ scrubSub P R (s.drop (k + n))) := by
              rw [List.append_assoc, List.drop_append_eq_append_drop,
                show i - (s.take k).length = 0 by omega, List.drop_zero]
            rw [hdecomp] at habs
            have hAd : ((s.take k).drop i).length = k - i := by
              rw [List.length_drop, hA]
            by_cases hlm : m.length ≤ k - i
            · have h2 := congrArg (List.take m.length) habs
              rw [List.take_append_eq_append_take,
                show m.length - ((s.take k).drop i).length = 0 by omega,
                List.take_zero, List.append_nil, List.take_left] at h2
              have hAi : (s.take k).drop i = (s.drop i).take (k - i) := by
                rw [List.drop_take]
              rw [hAi, List.take_take, min_eq_left hlm] at h2
              have hsplit : s.drop i = m ++ (s.drop i).drop m.length := by
                conv_lhs => rw [← List.take_append_drop m.length (s.drop i)]
                rw [h2]
              exact hnoS i hi2 m _ hLM hsplit
            · push_neg at hlm
              have hdropm := congrArg (List.drop (k - i)) habs
              rw [List.drop_append_eq_append_drop,
                List.drop_eq_nil_of_le (by omega : ((s.take k).drop i).length ≤ k - i),
                List.nil_append,
                show k - i - ((s.take k).drop i).length = 0 by omega, List.drop_zero,
                List.drop_append_eq_append_drop,
                show k - i - m.length = 0 by omega, List.drop_zero] at hdropm
              cases hRc : R with
              | nil => exact hRne hRc
              | cons r0 rs =>
                  have hmd : m.drop (k - i) ≠ [] := by
                    intro h0
                    have hlen0 := congrArg List.length h0
                    rw [List.length_drop] at hlen0
                    simp at hlen0
                    omega
                  obtain ⟨x, xs, hxs⟩ := List.exists_cons_of_ne_nil hmd
                  rw [hxs, hRc] at hdropm
                  simp only [List.cons_append] at hdropm
                  have hx : r0 = x := (List.cons_eq_cons.mp hdropm).1
                  have hxm : x ∈ m := List.mem_of_mem_drop (hxs ▸ List.mem_cons_self x xs)
                  have hchar := langMatch_chars hLM x hxm
                  rw [← hx, hr0 r0 rs hRc] at hchar
                  exact Bool.false_ne_true hchar
          · push_neg at hi2
            have hdecomp : ((s.take k ++ R ++ scrubSub P R (s.drop (k + n))).drop i)
                = R.drop (i - k) ++ scrubSub P R (s.drop (k + n)) := by
              rw [List.append_assoc, List.drop_append_eq_append_drop,
                List.drop_eq_nil_of_le (by rw [hA]; omega), List.nil_append,
                List.drop_append_eq_append_drop, hA,
                show i - k - R.length = 0 by omega, List.drop_zero]
            rw [hdecomp] at habs
            have hRd : R.drop (i - k) ≠ [] := by
              intro h0
              have hlen0 := congrArg List.length h0
              rw [List.length_drop] at hlen0
              simp at hlen0
              omega
            obtain ⟨r, rs2, hr⟩ := List.exists_cons_of_ne_nil hRd
            rcases hLM with ⟨mid, hmeq, hrm⟩
            cases hQhd : Q.head with
            | nil => exact hQh hQhd
            | cons qc qcs =>
                rw [hmeq, hQhd, hr] at habs
                simp only [List.cons_append, List.append_assoc] at habs
                have hq : r = qc := (List.cons_eq_cons.mp habs).1
                have hrR : r ∈ R := List.mem_of_mem_drop (hr ▸ List.mem_cons_self r rs2)
                exact hh0 qc qcs hQhd (hq ▸ hrR)
theorem matchAt_head_prefix {pat : ScrubPat} {s : PyStr} {n : Nat}
    (h : matchAt pat s = some n) : pat.head <+: s := by
  unfold matchAt at h
  by_cases hpre : pat.head.isPrefixOf s
  · exact List.isPrefixOf_iff_prefix.mp hpre
  · rw [if_neg hpre] at h
    cases h

theorem langMatch_take_head {pat : ScrubPat} {m mid : PyStr}
    (hmeq : m = pat.head ++ mid ++ pat.tail) :
    m.take pat.head.length = pat.head := by
  rw [hmeq, List.append_assoc, List.take_append_eq_append_take, Nat.sub_self,
    List.take_zero, List.append_nil, List.take_length]

theorem langMatch_len {pat : ScrubPat} {m mid : PyStr}
    (hmeq : m = pat.head ++ mid ++ pat.tail) :
    m.length = pat.head.length + mid.length + pat.tail.length := by
  rw [hmeq]
  simp only [List.length_append]

theorem oauth_mid_inv {mid : PyStr} (h : RunsMatch oauthPat.runs mid) :
    mid ≠ [] ∧ ∀ c ∈ mid, c ≠ '@' := by
  rw [show oauthPat.runs = [(notAtClass, 1)] from rfl] at h
  cases h with
  | cons w p m rs rest hw hlen htail =>
      have hr0 : rest = [] := runsMatch_nil_inv htail
      subst hr0
      constructor
      · intro h0
        have hlen0 := congrArg List.length h0
        simp only [List.length_append, List.length_nil] at hlen0
        omega
      · intro c hc
        rw [List.append_nil] at hc
        have hnac := hw c hc
        intro hceq
        subst hceq
        simp [notAtClass] at hnac

theorem oauth_occ_of {u : PyStr} {i : Nat} {c : Char} {r : PyStr}
    (h1 : oauthPat.head <+: u.drop i)
    (h2 : u.drop (i + oauthPat.head.length) = c :: r)
    (h3 : c ≠ '@') (h4 : ('@' : Char) ∈ c :: r) :
    ∃ m t, LangMatch oauthPat m ∧ u.drop i = m ++ t := by
  rcases exists_split_first h4 with ⟨mid, t, hsplit, hmid⟩
  have hmidne : mid ≠ [] := by
    intro h0
    subst h0
    rw [List.nil_append] at hsplit
    exact h3 (List.cons_eq_cons.mp hsplit).1
  rcases h1 with ⟨t2, ht2⟩
  have ht2' : t2 = c :: r := by
    have hd := congrArg (List.drop oauthPat.head.length) ht2
    rw [List.drop_left, List.drop_drop] at hd
    rw [h2] at hd
    exact hd
  subst ht2'
  refine ⟨oauthPat.head ++ (mid ++ ['@']), t, ⟨mid, by rw [← List.append_assoc]; rfl, ?_⟩, ?_⟩
  · have hrm : RunsMatch [(notAtClass, 1)] (mid ++ []) := by
      refine RunsMatch.cons mid notAtClass 1 [] [] ?_ ?_ RunsMatch.nil
      · intro c' hc'
        simp only [notAtClass, bne_iff_ne, ne_eq]
        exact hmid c' hc'
      · have := List.length_pos.mpr hmidne
        omega
    rw [List.append_nil] at hrm
    exact hrm
  · rw [← ht2, hsplit]
    simp [List.append_assoc]

theorem scrub_oauth_core (P : ScrubPat) (R : PyStr)
    (hPh : P.head ≠ [])
    (hR1 : noReplHeadStart oauthPat R)
    (hR2 : noHeadReplOverlap oauthPat R)
    (hP0 : ∀ c cs, P.head = c :: cs → c ≠ '@') :
    ∀ (L : Nat) (s : PyStr), s.length ≤ L →
      ((P = oauthPat ∧ patWF oauthPat) ∨ (('@' : Char) ∉ R ∧ noLangOcc oauthPat s)) →
      noLangOcc oauthPat (scrubSub P R s) := by
  have hQh : oauthPat.head ≠ [] := by decide
  intro L
  induction L with
  | zero =>
      intro s hs hsrc
      have hsnil : s = [] := List.eq_nil_of_length_eq_zero (Nat.le_zero.mp hs)
      subst hsnil
      intro i m t hLM habs
      have h0 : scrubSub P R [] = [] := rfl
      rw [h0, List.drop_nil] at habs
      rcases List.append_eq_nil.mp habs.symm with ⟨hm0, _⟩
      exact langMatch_ne_nil hLM hQh hm0
  | succ L ihL =>
      intro s hs hsrc
      rcases scrubSub_shape P R hPh s with ⟨hml, heq⟩ | ⟨k, n, hk, hml, hmk, hn1, heq⟩
      · rw [heq]
        rcases hsrc with ⟨hPQ, hwf⟩ | ⟨_, hocc⟩
        · intro i m t hLM habs
          by_cases hi : i < s.length
          · rcases matchAt_complete oauthPat hwf hLM t with ⟨n', hn'⟩
            rw [hPQ] at hml
            rw [← habs, hml i hi] at hn'
            cases hn'
          · have hnil : s.drop i = [] := List.drop_eq_nil_of_le (le_of_not_lt hi)
            rw [hnil] at habs
            rcases List.append_eq_nil.mp habs.symm with ⟨hm0, _⟩
            exact langMatch_ne_nil hLM hQh hm0
        · exact hocc
      · rw [heq]
        have hout' : noLangOcc oauthPat (scrubSub P R (s.drop (k + n))) := by
          apply ihL
          · rw [List.length_drop]
            omega
          · rcases hsrc with hself | ⟨hatR, hocc⟩
            · exact Or.inl hself
            · exact Or.inr ⟨hatR, noLangOcc_suffix hocc (k + n)⟩
        have hnoS : ∀ i, i < k → ∀ m t, LangMatch oauthPat m → s.drop i ≠ m ++ t := by
          intro i hi m t hLM habs2
          rcases hsrc with ⟨hPQ, hwf⟩ | ⟨_, hocc⟩
          · rcases matchAt_complete oauthPat hwf hLM t with ⟨n', hn'⟩
            rw [hPQ] at hml
            rw [← habs2, hml i hi] at hn'
            cases hn'
          · exact hocc i m t hLM habs2
        intro i m t hLM habs
        have hA : (s.take k).length = k := by
          rw [List.length_take]
          omega
        by_cases hi1 : k + R.length ≤ i
        · have hdecomp : ((s.take k ++ R ++ scrubSub P R (s.drop (k + n))).drop i)
              = (scrubSub P R (s.drop (k + n))).drop (i - (k + R.length)) := by
            rw [List.append_assoc, List.drop_append_eq_append_drop,
              List.drop_eq_nil_of_le (by rw [hA]; omega), List.nil_append,
              List.drop_append_eq_append_drop,
              List.drop_eq_nil_of_le (by omega : R.length ≤ i - (s.take k).length),
              List.nil_append, hA]
            congr 1
            omega
          rw [hdecomp] at habs
          exact hout' _ m t hLM habs
        · push_neg at hi1
          by_cases hi2 : i < k
          · -- occurrence starts in the retained s-region
            have hdecomp : ((s.take k ++ R ++ scrubSub P R (s.drop (k + n))).drop i)
                = (s.take k).drop i ++ (R ++ scrubSub P R (s.drop (k + n))) := by
              rw [List.append_assoc, List.drop_append_eq_append_drop,
                show i - (s.take k).length = 0 by omega, List.drop_zero]
            rw [hdecomp] at habs
            have hAd : ((s.take k).drop i).length = k - i := by
              rw [List.length_drop, hA]
            rcases hLM with ⟨mid, hmeq, hrm⟩
            obtain ⟨hmidne, hmidat⟩ := oauth_mid_inv hrm
            have hmlen : m.length
                = oauthPat.head.length + mid.length + oauthPat.tail.length :=
              langMatch_len hmeq
            have htlen : oauthPat.tail.length = 1 := rfl
            have hmidpos : 1 ≤ mid.length := List.length_pos.mpr hmidne
            by_cases hlm : m.length ≤ k - i
            · have h2 := congrArg (List.take m.length) habs
              rw [List.take_append_eq_append_take,
                show m.length - ((s.take k).drop i).length = 0 by omega,
                List.take_zero, List.append_nil, List.take_left] at h2
              have hAi : (s.take k).drop i = (s.drop i).take (k - i) := by
                rw [List.drop_take]
              rw [hAi, List.take_take, min_eq_left hlm] at h2
              have hsplit : s.drop i = m ++ (s.drop i).drop m.length := by
                conv_lhs => rw [← List.take_append_drop m.length (s.drop i)]
                rw [h2]
              exact hnoS i hi2 m _ ⟨mid, hmeq, hrm⟩ hsplit
            · push_neg at hlm
              have hdropm := congrArg (List.drop (k - i)) habs
              rw [List.drop_append_eq_append_drop,
                List.drop_eq_nil_of_le (by omega : ((s.take k).drop i).length ≤ k - i),
                List.nil_append,
                show k - i - ((s.take k).drop i).length = 0 by omega, List.drop_zero,
                List.drop_append_eq_append_drop,
                show k - i - m.length = 0 by omega, List.drop_zero] at hdropm
              by_cases hA15 : oauthPat.head.length ≤ k - i
              · -- the literal head lies wholly inside the retained region
                have hAi : (s.take k).drop i = (s.drop i).take (k - i) := by
                  rw [List.drop_take]
                have htk := congrArg (List.take (k - i)) habs
                rw [List.take_append_eq_append_take,
                  show k - i - ((s.take k).drop i).length = 0 by omega,
                  List.take_zero, List.append_nil,
                  List.take_of_length_le (by omega : ((s.take k).drop i).length ≤ k - i),
                  List.take_append_eq_append_take,
                  show k - i - m.length = 0 by omega,
                  List.take_zero, List.append_nil, hAi] at htk
                have hmhead : m.take oauthPat.head.length = oauthPat.head :=
                  langMatch_take_head hmeq
                have htk15 := congrArg (List.take oauthPat.head.length) htk
                rw [List.take_take, List.take_take, min_eq_left hA15, hmhead] at htk15
                have h1 : oauthPat.head <+: s.drop i := by
                  rw [← htk15]
                  exact List.take_prefix _ _
                have hne2 : s.drop (i + oauthPat.head.length) ≠ [] := by
                  intro h0
                  have hl0 := congrArg List.length h0
                  rw [List.length_drop] at hl0
                  simp at hl0
                  omega
                obtain ⟨c, r, hcr⟩ := List.exists_cons_of_ne_nil hne2
                have hcne : c ≠ '@' := by
                  by_cases hEq : k - i = oauthPat.head.length
                  · have hkk : i + oauthPat.head.length = k := by omega
                    rcases matchAt_head_prefix hmk with ⟨w, hw⟩
                    cases hPhd : P.head with
                    | nil => exact absurd hPhd hPh
                    | cons pc pcs =>
                        rw [hPhd] at hw
                        rw [← hkk, hcr] at hw
                        simp only [List.cons_append] at hw
                        have hpc : pc = c := (List.cons_eq_cons.mp hw).1
                        rw [← hpc]
                        exact hP0 pc pcs hPhd
                  · obtain ⟨mc, mcs, hmc⟩ := List.exists_cons_of_ne_nil hmidne
                    have hmdrop : m.drop oauthPat.head.length = mid ++ ['@'] := by
                      rw [hmeq, List.append_assoc, List.drop_append_eq_append_drop,
                        List.drop_length, Nat.sub_self, List.drop_zero, List.nil_append]
                      rfl
                    have htk2 := congrArg (List.drop oauthPat.head.length) htk
                    rw [List.drop_take, List.drop_take, List.drop_drop] at htk2
                    rw [hcr, hmdrop, hmc] at htk2
                    have hpos : 1 ≤ k - i - oauthPat.head.length := by omega
                    obtain ⟨j0, hj0⟩ := Nat.exists_eq_add_of_le hpos
                    rw [hj0, show (1 + j0) = j0 + 1 by omega] at htk2
                    simp only [List.cons_append, List.take_succ_cons] at htk2
                    have hcmc : c = mc := (List.cons_eq_cons.mp htk2).1
                    rw [hcmc]
                    exact hmidat mc (hmc ▸ List.mem_cons_self mc mcs)
                have hat : ('@' : Char) ∈ c :: r := by
                  rw [← hcr]
                  rcases hsrc with ⟨hPQ, _⟩ | ⟨hatR, _⟩
                  · rcases matchAt_some_spec P (s.drop k) n hmk with ⟨_, hLMk⟩
                    rcases hLMk with ⟨mid2, hmeq2, _⟩
                    have hat1 : ('@' : Char) ∈ (s.drop k).take n := by
                      rw [hmeq2, hPQ]
                      exact List.mem_append.mpr (Or.inr (by decide))
                    have hat2 : ('@' : Char) ∈ s.drop k := List.mem_of_mem_take hat1
                    have hdk : s.drop k = (s.drop (i + oauthPat.head.length)).drop
                        (k - i - oauthPat.head.length) := by
                      rw [List.drop_drop]
                      congr 1
                      omega
                    rw [hdk] at hat2
                    exact List.mem_of_mem_drop hat2
                  · have hatm : ('@' : Char) ∈ m.drop (k - i) := by
                      have hmd2 : m.drop (k - i)
                          = mid.drop (k - i - oauthPat.head.length) ++ ['@'] := by
                        rw [hmeq, List.append_assoc, List.drop_append_eq_append_drop,
                          List.drop_eq_nil_of_le hA15, List.nil_append,
                          List.drop_append_eq_append_drop,
                          show k - i - oauthPat.head.length - mid.length = 0 by omega,
                          List.drop_zero]
                        rfl
                      rw [hmd2]
                      exact List.mem_append.mpr (Or.inr (List.mem_cons_self _ _))
                    have hatW : ('@' : Char)
                        ∈ R ++ scrubSub P R (s.drop (k + n)) := by
                      rw [hdropm]
                      exact List.mem_append.mpr (Or.inl hatm)
                    rcases List.mem_append.mp hatW with hR' | hout2
                    · exact absurd hR' hatR
                    · rcases mem_scrubSub hout2 with hs' | hR'
                      · have hdk : s.drop (k + n) = (s.drop (i + oauthPat.head.length)).drop
                            (k + n - i - oauthPat.head.length) := by
                          rw [List.drop_drop]
                          congr 1
                          omega
                        rw [hdk] at hs'
                        exact List.mem_of_mem_drop hs'
                      · exact absurd hR' hatR
                rcases oauth_occ_of h1 hcr hcne hat with ⟨m', t', hLM', hsplit'⟩
                exact hnoS i hi2 m' t' hLM' hsplit'
              · -- the head straddles the boundary into the replacement
                push_neg at hA15
                have ha1 : 1 ≤ k - i := by omega
                have hmhead : m.take oauthPat.head.length = oauthPat.head :=
                  langMatch_take_head hmeq
                have hhd : (m.drop (k - i)).take (oauthPat.head.length - (k - i))
                    = oauthPat.head.drop (k - i) := by
                  have hcg := congrArg (List.drop (k - i)) hmhead
                  rw [List.drop_take] at hcg
                  exact hcg
                by_cases hRlen : oauthPat.head.length - (k - i) ≤ R.length
                · have h2 := congrArg (List.take (oauthPat.head.length - (k - i))) hdropm
                  rw [List.take_append_eq_append_take,
                    show oauthPat.head.length - (k - i) - R.length = 0 by omega,
                    List.take_zero, List.append_nil,
                    List.take_append_eq_append_take,
                    show oauthPat.head.length - (k - i) - (m.drop (k - i)).length = 0 by
                      rw [List.length_drop]; omega,
                    List.take_zero, List.append_nil, hhd] at h2
                  exact hR2 (k - i) ha1 hA15 (Or.inl (by rw [← h2]; exact List.take_prefix _ _))
                · push_neg at hRlen
                  have h2 := congrArg (List.take R.length) hdropm
                  rw [List.take_left, List.take_append_eq_append_take,
                    show R.length - (m.drop (k - i)).length = 0 by
                      rw [List.length_drop]; omega,
                    List.take_zero, List.append_nil] at h2
                  have h3 : (m.drop (k - i)).take R.length
                      = (oauthPat.head.drop (k - i)).take R.length := by
                    rw [← hhd, List.take_take, min_eq_left (le_of_lt hRlen)]
                  rw [h3] at h2
                  exact hR2 (k - i) ha1 hA15 (Or.inr (by rw [h2]; exact List.take_prefix _ _))
          · -- occurrence starts inside the replacement text
            push_neg at hi2
            have hdecomp : ((s.take k ++ R ++ scrubSub P R (s.drop (k + n))).drop i)
                = R.drop (i - k) ++ scrubSub P R (s.drop (k + n)) := by
              rw [List.append_assoc, List.drop_append_eq_append_drop,
                List.drop_eq_nil_of_le (by rw [hA]; omega), List.nil_append,
                List.drop_append_eq_append_drop, hA,
                show i - k - R.length = 0 by omega, List.drop_zero]
            rw [hdecomp] at habs
            rcases hLM with ⟨mid, hmeq, hrm⟩
            obtain ⟨hmidne, _⟩ := oauth_mid_inv hrm
            have hmlen : m.length
                = oauthPat.head.length + mid.length + oauthPat.tail.length :=
              langMatch_len hmeq
            have hmidpos : 1 ≤ mid.length := List.length_pos.mpr hmidne
            have htlen : oauthPat.tail.length = 1 := rfl
            have hmhead : m.take oauthPat.head.length = oauthPat.head :=
              langMatch_take_head hmeq
            by_cases hjl : oauthPat.head.length ≤ (R.drop (i - k)).length
            · have h2 := congrArg (List.take oauthPat.head.length) habs
              rw [List.take_append_eq_append_take,
                show oauthPat.head.length - (R.drop (i - k)).length = 0 by omega,
                List.take_zero, List.append_nil,
                List.take_append_eq_append_take,
                show oauthPat.head.length - m.length = 0 by omega,
                List.take_zero, List.append_nil, hmhead] at h2
              exact hR1 (i - k) (by omega)
                (Or.inr (by rw [← h2]; exact List.take_prefix _ _))
            · push_neg at hjl
              have h2 := congrArg (List.take (R.drop (i - k)).length) habs
              rw [List.take_left, List.take_append_eq_append_take,
                show (R.drop (i - k)).length - m.length = 0 by omega,
                List.take_zero, List.append_nil] at h2
              have h3 : m.take (R.drop (i - k)).length
                  = oauthPat.head.take (R.drop (i - k)).length := by
                rw [← hmhead, List.take_take, min_eq_left (le_of_lt hjl)]
              rw [h3] at h2
              exact hR1 (i - k) (by omega)
                (Or.inl (by rw [h2]; exact List.take_prefix _ _))
theorem head_ne_at_of_headI {X : ScrubPat} (g : Char) (hg : X.head.headI = g)
    (hne : g ≠ '@') : ∀ c cs, X.head = c :: cs → c ≠ '@' := by
  intro c cs h
  have h' := congrArg List.headI h
  rw [hg, show (c :: cs).headI = c from rfl] at h'
  rw [← h']
  exact hne

theorem head_notin_of_headI {X : ScrubPat} {R : PyStr} (g : Char)
    (hg : X.head.headI = g) (hne : g ∉ R) : ∀ c cs, X.head = c :: cs → c ∉ R := by
  intro c cs h
  have h' := congrArg List.headI h
  rw [hg, show (c :: cs).headI = c from rfl] at h'
  rw [← h']
  exact hne

theorem r0_allowed_of_headI {Q : ScrubPat} {R : PyStr} (g : Char) (hg : R.headI = g)
    (hall : allowedChar Q g = false) : ∀ c cs, R = c :: cs → allowedChar Q c = false := by
  intro c cs h
  have h' := congrArg List.headI h
  rw [hg, show (c :: cs).headI = c from rfl] at h'
  rw [← h']
  exact hall

theorem patWF_oauthPat : patWF oauthPat := by
  refine ⟨by decide, ?_, ?_⟩
  · intro pr hpr
    rcases List.mem_singleton.mp hpr with rfl
    decide
  · show notAtClass '@' = false
    decide

theorem patWF_ghpLogPat : patWF ghpLogPat := by
  refine ⟨by decide, ?_, trivial⟩
  intro pr hpr
  rcases List.mem_singleton.mp hpr with rfl
  decide

theorem patWF_glpatLogPat : patWF glpatLogPat := by
  refine ⟨by decide, ?_, trivial⟩
  intro pr hpr
  rcases List.mem_singleton.mp hpr with rfl
  decide

theorem patWF_ghpErrPat : patWF ghpErrPat := by
  refine ⟨by decide, ?_, trivial⟩
  intro pr hpr
  rcases List.mem_singleton.mp hpr with rfl
  decide

theorem patWF_glpatErrPat : patWF glpatErrPat := by
  refine ⟨by decide, ?_, trivial⟩
  intro pr hpr
  rcases List.mem_singleton.mp hpr with rfl
  decide

theorem patWF_tokenEqPat : patWF tokenEqPat := by
  refine ⟨by decide, ?_, trivial⟩
  intro pr hpr
  rcases List.mem_singleton.mp hpr with rfl
  decide

theorem patWF_bearerPat : patWF bearerPat := by
  refine ⟨by decide, ?_, ?_, trivial⟩
  · intro pr hpr
    rcases List.mem_cons.mp hpr with rfl | hpr2
    · decide
    · rcases List.mem_singleton.mp hpr2 with rfl
      decide
  · intro c hb
    have hb' : bearerClass c = true := hb
    show spaceClass c = false
    cases hsp : spaceClass c
    · rfl
    · exfalso
      have hc : c = ' ' ∨ c = '\t' ∨ c = '\n' ∨ c = '\r' ∨ c = '\x0b' ∨ c = '\x0c' := by
        simp only [spaceClass, Bool.or_eq_true, beq_iff_eq] at hsp
        tauto
      rcases hc with h | h | h | h | h | h <;> subst h <;> exact absurd hb' (by decide)
theorem noReplHeadStart_red : noReplHeadStart oauthPat redactedRepl := by
  unfold noReplHeadStart
  decide

theorem noHeadReplOverlap_red : noHeadReplOverlap oauthPat redactedRepl := by
  unfold noHeadReplOverlap
  decide

theorem noReplHeadStart_errRepl : noReplHeadStart oauthPat oauthErrRepl := by
  unfold noReplHeadStart
  decide

theorem noHeadReplOverlap_errRepl : noHeadReplOverlap oauthPat oauthErrRepl := by
  unfold noHeadReplOverlap
  decide

theorem log_filter_no_occ (s : PyStr) :
    noLangOcc oauthPat (token_scrub_filter s)
    ∧ noLangOcc ghpLogPat (token_scrub_filter s)
    ∧ noLangOcc glpatLogPat (token_scrub_filter s)
    ∧ noLangOcc bearerPat (token_scrub_filter s) := by
  have o1 : noLangOcc oauthPat (scrubSub oauthPat redactedRepl s) :=
    scrub_oauth_core oauthPat redactedRepl (by decide) noReplHeadStart_red
      noHeadReplOverlap_red
      (head_ne_at_of_headI 'h' rfl (by decide)) s.length s (Nat.le_refl _)
      (Or.inl ⟨rfl, patWF_oauthPat⟩)
  have o2 : noLangOcc oauthPat (scrubSub ghpLogPat redactedRepl
      (scrubSub oauthPat redactedRepl s)) :=
    scrub_oauth_core ghpLogPat redactedRepl (by decide) noReplHeadStart_red
      noHeadReplOverlap_red
      (head_ne_at_of_headI 'g' rfl (by decide)) _ _ (Nat.le_refl _)
      (Or.inr ⟨by decide, o1⟩)
  have o3 : noLangOcc oauthPat (scrubSub glpatLogPat redactedRepl
      (scrubSub ghpLogPat redactedRepl (scrubSub oauthPat redactedRepl s))) :=
    scrub_oauth_core glpatLogPat redactedRepl (by decide) noReplHeadStart_red
      noHeadReplOverlap_red
      (head_ne_at_of_headI 'g' rfl (by decide)) _ _ (Nat.le_refl _)
      (Or.inr ⟨by decide, o2⟩)
  have o4 : noLangOcc oauthPat (scrubSub bearerPat redactedRepl
      (scrubSub glpatLogPat redactedRepl
        (scrubSub ghpLogPat redactedRepl (scrubSub oauthPat redactedRepl s)))) :=
    scrub_oauth_core bearerPat redactedRepl (by decide) noReplHeadStart_red
      noHeadReplOverlap_red
      (head_ne_at_of_headI 'B' rfl (by decide)) _ _ (Nat.le_refl _)
      (Or.inr ⟨by decide, o3⟩)
  have o5 : noLangOcc oauthPat (token_scrub_filter s) :=
    scrub_oauth_core tokenEqPat redactedRepl (by decide) noReplHeadStart_red
      noHeadReplOverlap_red
      (head_ne_at_of_headI 't' rfl (by decide)) _ _ (Nat.le_refl _)
      (Or.inr ⟨by decide, o4⟩)
  have g2 : noLangOcc ghpLogPat (scrubSub ghpLogPat redactedRepl
      (scrubSub oauthPat redactedRepl s)) :=
    scrub_no_occ_core ghpLogPat ghpLogPat redactedRepl (by decide) (by decide) (by decide)
      (r0_allowed_of_headI '[' rfl (by decide))
      (head_notin_of_headI 'g' rfl (by decide)) _ _ (Nat.le_refl _)
      (Or.inl ⟨rfl, patWF_ghpLogPat⟩)
  have g3 : noLangOcc ghpLogPat (scrubSub glpatLogPat redactedRepl
      (scrubSub ghpLogPat redactedRepl (scrubSub oauthPat redactedRepl s))) :=
    scrub_no_occ_core glpatLogPat ghpLogPat redactedRepl (by decide) (by decide) (by decide)
      (r0_allowed_of_headI '[' rfl (by decide))
      (head_notin_of_headI 'g' rfl (by decide)) _ _ (Nat.le_refl _) (Or.inr g2)
  have g4 : noLangOcc ghpLogPat (scrubSub bearerPat redactedRepl
      (scrubSub glpatLogPat redactedRepl
        (scrubSub ghpLogPat redactedRepl (scrubSub oauthPat redactedRepl s)))) :=
    scrub_no_occ_core bearerPat ghpLogPat redactedRepl (by decide) (by decide) (by decide)
      (r0_allowed_of_headI '[' rfl (by decide))
      (head_notin_of_headI 'g' rfl (by decide)) _ _ (Nat.le_refl _) (Or.inr g3)
  have g5 : noLangOcc ghpLogPat (token_scrub_filter s) :=
    scrub_no_occ_core tokenEqPat ghpLogPat redactedRepl (by decide) (by decide) (by decide)
      (r0_allowed_of_headI '[' rfl (by decide))
      (head_notin_of_headI 'g' rfl (by decide)) _ _ (Nat.le_refl _) (Or.inr g4)
  have l3 : noLangOcc glpatLogPat (scrubSub glpatLogPat redactedRepl
      (scrubSub ghpLogPat redactedRepl (scrubSub oauthPat redactedRepl s))) :=
    scrub_no_occ_core glpatLogPat glpatLogPat redactedRepl (by decide) (by decide) (by decide)
      (r0_allowed_of_headI '[' rfl (by decide))
      (head_notin_of_headI 'g' rfl (by decide)) _ _ (Nat.le_refl _)
      (Or.inl ⟨rfl, patWF_glpatLogPat⟩)
  have l4 : noLangOcc glpatLogPat (scrubSub bearerPat redactedRepl
      (scrubSub glpatLogPat redactedRepl
        (scrubSub ghpLogPat redactedRepl (scrubSub oauthPat redactedRepl s)))) :=
    scrub_no_occ_core bearerPat glpatLogPat redactedRepl (by decide) (by decide) (by decide)
      (r0_allowed_of_headI '[' rfl (by decide))
      (head_notin_of_headI 'g' rfl (by decide)) _ _ (Nat.le_refl _) (Or.inr l3)
  have l5 : noLangOcc glpatLogPat (token_scrub_filter s) :=
    scrub_no_occ_core tokenEqPat glpatLogPat redactedRepl (by decide) (by decide) (by decide)
      (r0_allowed_of_headI '[' rfl (by decide))
      (head_notin_of_headI 'g' rfl (by decide)) _ _ (Nat.le_refl _) (Or.inr l4)
  have b4 : noLangOcc bearerPat (scrubSub bearerPat redactedRepl
      (scrubSub glpatLogPat redactedRepl
        (scrubSub ghpLogPat redactedRepl (scrubSub oauthPat redactedRepl s)))) :=
    scrub_no_occ_core bearerPat bearerPat redactedRepl (by decide) (by decide) (by decide)
      (r0_allowed_of_headI '[' rfl (by decide))
      (head_notin_of_headI 'B' rfl (by decide)) _ _ (Nat.le_refl _)
      (Or.inl ⟨rfl, patWF_bearerPat⟩)
  have b5 : noLangOcc bearerPat (token_scrub_filter s) :=
    scrub_no_occ_core tokenEqPat bearerPat redactedRepl (by decide) (by decide) (by decide)
      (r0_allowed_of_headI '[' rfl (by decide))
      (head_notin_of_headI 'B' rfl (by decide)) _ _ (Nat.le_refl _) (Or.inr b4)
  exact ⟨o5, g5, l5, b5⟩

theorem error_scrub_no_occ (s : PyStr) :
    noLangOcc oauthPat (scrub_error_message s)
    ∧ noLangOcc ghpErrPat (scrub_error_message s)
    ∧ noLangOcc glpatErrPat (scrub_error_message s) := by
  have q1 : noLangOcc oauthPat (scrubSub oauthPat oauthErrRepl s) :=
    scrub_oauth_core oauthPat oauthErrRepl (by decide) noReplHeadStart_errRepl
      noHeadReplOverlap_errRepl
      (head_ne_at_of_headI 'h' rfl (by decide)) s.length s (Nat.le_refl _)
      (Or.inl ⟨rfl, patWF_oauthPat⟩)
  have q2 : noLangOcc oauthPat (scrubSub ghpErrPat redactedRepl
      (scrubSub oauthPat oauthErrRepl s)) :=
    scrub_oauth_core ghpErrPat redactedRepl (by decide) noReplHeadStart_red
      noHeadReplOverlap_red
      (head_ne_at_of_headI 'g' rfl (by decide)) _ _ (Nat.le_refl _)
      (Or.inr ⟨by decide, q1⟩)
  have q3 : noLangOcc oauthPat (scrub_error_message s) :=
    scrub_oauth_core glpatErrPat redactedRepl (by decide) noReplHeadStart_red
      noHeadReplOverlap_red
      (head_ne_at_of_headI 'g' rfl (by decide)) _ _ (Nat.le_refl _)
      (Or.inr ⟨by decide, q2⟩)
  have e2 : noLangOcc ghpErrPat (scrubSub ghpErrPat redactedRepl
      (scrubSub oauthPat oauthErrRepl s)) :=
    scrub_no_occ_core ghpErrPat ghpErrPat redactedRepl (by decide) (by decide) (by decide)
      (r0_allowed_of_headI '[' rfl (by decide))
      (head_notin_of_headI 'g' rfl (by decide)) _ _ (Nat.le_refl _)
      (Or.inl ⟨rfl, patWF_ghpErrPat⟩)
  have e3 : noLangOcc ghpErrPat (scrub_error_message s) :=
    scrub_no_occ_core glpatErrPat ghpErrPat redactedRepl (by decide) (by decide) (by decide)
      (r0_allowed_of_headI '[' rfl (by decide))
      (head_notin_of_headI 'g' rfl (by decide)) _ _ (Nat.le_refl _) (Or.inr e2)
  have f3 : noLangOcc glpatErrPat (scrub_error_message s) :=
    scrub_no_occ_core glpatErrPat glpatErrPat redactedRepl (by decide) (by decide) (by decide)
      (r0_allowed_of_headI '[' rfl (by decide))
      (head_notin_of_headI 'g' rfl (by decide)) _ _ (Nat.le_refl _)
      (Or.inl ⟨rfl, patWF_glpatErrPat⟩)
  exact ⟨q3, e3, f3⟩
/-- C5 (counterexample to the original claim): the task-error-message
scrubbing of `_run_task` applies only the oauth2, `ghp_` and `glpat-`
substitutions, not the `Bearer` pattern, so the stored error message
"Bearer abc" passes through unchanged and still contains a substring
matching the `Bearer\s+[A-Za-z0-9\-_.]+` token pattern. -/
theorem C5_counterexample :
    scrub_error_message ("Bearer abc".toList) = "Bearer abc".toList
    ∧ ¬ noLangOcc bearerPat (scrub_error_message ("Bearer abc".toList)) := by
  constructor
  · decide
  · intro hno
    exact hno 0 ("Bearer abc".toList) [] ⟨[' '] ++ (['a', 'b', 'c'] ++ []), by decide,
      RunsMatch.cons [' '] spaceClass 1 [(bearerClass, 1)] (['a', 'b', 'c'] ++ [])
        (by decide) (by decide)
        (RunsMatch.cons ['a', 'b', 'c'] bearerClass 1 [] [] (by decide) (by decide)
          RunsMatch.nil)⟩
      (by decide)

/-- C5 (amended): redaction holds for the patterns each scrub site actually
applies. For every input string, the log filter's output contains no
substring matching `oauth2:…@`, `ghp_…{36,}`, `glpat-…{20,}` or
`Bearer …`; and the stored task error message (and the error text of the
published failure event, which _run_task builds from the same scrub)
contains no substring matching `oauth2:…@`, `ghp_…` or `glpat-…` — but the
`Bearer` guarantee holds only for log lines, not for the stored error
message. -/
theorem C5_amended (s : PyStr) :
    (noLangOcc oauthPat (token_scrub_filter s)
      ∧ noLangOcc ghpLogPat (token_scrub_filter s)
      ∧ noLangOcc glpatLogPat (token_scrub_filter s)
      ∧ noLangOcc bearerPat (token_scrub_filter s))
    ∧ (noLangOcc oauthPat (scrub_error_message s)
      ∧ noLangOcc ghpErrPat (scrub_error_message s)
      ∧ noLangOcc glpatErrPat (scrub_error_message s)) :=
  ⟨log_filter_no_occ s, error_scrub_no_occ s⟩
